import Mathlib

/-!
# Weighted sample elimination — verification of `blue_noise_particles.py`

Shallow embedding of the sample-elimination engine (`SampleEliminator` and
its helpers) from `blue_noise_particles.py`.  Python floats are modelled by
exact real arithmetic; the caller-supplied coordinates (which are IEEE
doubles, hence rationals) are modelled as rationals.  Python exceptions are
modelled by an `Except` monad whose error constructors name the Python
exception type raised at the corresponding program point; `validate` encodes,
as a decidable computation on the rational input data, exactly which
exception (if any) `SampleEliminator.__init__` raises, in program order.

The standard-library collaborators are modelled by their documented
contracts:

* `mathutils.kdtree.KDTree.find_range(co, r)` returns every inserted point
  whose Euclidean distance to `co` is at most `r` — including, when `co` is
  the location of an inserted point, that point itself at distance `0`
  (`findRange` below);
* `heapq` with the reversed `HeapItem.__lt__` comparator is a maximum
  priority queue: after the `heapq.heapify` call that ends every
  `eliminate_one`, `heapq.heappop` removes an item of maximal weight.  The
  order in which `heapq` breaks ties between equal weights is an unspecified
  artefact of the heap layout; the model fixes the deterministic tie-break
  "first item in the heap list wins" (`maxIdx` below).  The mutable
  `HeapItem` objects shared between `self.heap` and `self.heap_items` are
  modelled by the index list `live` (the identifiers present in `self.heap`)
  together with the total weight map `weights` (the `weight` field of
  `self.heap_items[i]`, which keeps existing after an item is popped).
-/

namespace BlueNoise

open Classical

/-- A 3D location: the rational coordinates of a caller-supplied point. -/
abbrev Q3 : Type := ℚ × ℚ × ℚ

/-- Squared Euclidean distance between two locations (exact, rational). -/
def sqDist (a b : Q3) : ℚ :=
  (a.1 - b.1) ^ 2 + (a.2.1 - b.2.1) ^ 2 + (a.2.2 - b.2.2) ^ 2

/-- Euclidean distance between two locations, as the KD-tree reports it. -/
noncomputable def dist3 (a b : Q3) : ℝ :=
  Real.sqrt (sqDist a b : ℚ)

/-- Python `max` over a nonempty list (the empty case, which raises
`ValueError` in Python, is given the junk value `0` and guarded by
`validate`). -/
def listMax : List ℚ → ℚ
  | [] => 0
  | x :: xs => xs.foldl max x

/-- Python `min` over a nonempty list (same convention as `listMax`). -/
def listMin : List ℚ → ℚ
  | [] => 0
  | x :: xs => xs.foldl min x

/-- One bounding-box extent: `max(p[i] for p in locations) - min(...)`
(line 49 of the source), for the coordinate selected by `f`. -/
def extent (locs : List (ℕ × Q3)) (f : Q3 → ℚ) : ℚ :=
  listMax (locs.map fun e => f e.2) - listMin (locs.map fun e => f e.2)

/-- The product `A = bounds[0] * bounds[1] * bounds[2]` of the three
bounding-box extents (line 52 of the source). -/
def boundingVolume (locs : List (ℕ × Q3)) : ℚ :=
  extent locs (fun p => p.1) * extent locs (fun p => p.2.1) *
    extent locs (fun p => p.2.2)

/-- The Python exception types the engine can raise, plus `invalidInput`,
the error class named by the specification's error taxonomy (which the
source never raises). -/
inductive PyError : Type where
  | valueError : PyError
  | zeroDivisionError : PyError
  | typeError : PyError
  | indexError : PyError
  | invalidInput : PyError
deriving DecidableEq, Repr

/-- Decision procedure for which Python exception `SampleEliminator.__init__`
raises, in program order, on the given input:

* `locations` empty — `ValueError` from `max()` over an empty sequence at
  the bounds computation (line 49);
* `target_samples = 0` — `ZeroDivisionError` at `A / 4 / sqrt(2) / N`
  (line 53);
* surface mode with an area: a negative argument to `math.sqrt` at line 57
  (`ValueError`, exactly when `area / N < 0`), then `min` comparing the
  complex `rmax` with a float at line 58 (`TypeError`, exactly when
  `A / N < 0`, i.e. `0 < A` and `N < 0`, since a negative base to the
  float power `1/3` yields a `complex` in Python 3);
* the first `find_range` call with a complex radius (line 70, `TypeError`,
  volume path with `0 < A` and `N < 0`);
* `rmax = 0` — `ZeroDivisionError` at `adj_d(d) / 2 / rmax` in `w`
  (line 105) during the initial heap build, reached because `find_range`
  always returns at least the query point itself.

Returns `none` exactly when `__init__` completes normally. -/
def validate (locs : List (ℕ × Q3)) (target : ℤ) (isVolume : Bool)
    (meshArea : Option ℚ) : Option PyError :=
  if locs.length = 0 then some .valueError
  else if target = 0 then some .zeroDivisionError
  else
    match isVolume, meshArea with
    | false, some a =>
      if (0 < a ∧ target < 0) ∨ (a < 0 ∧ 0 < target) then some .valueError
      else if 0 < boundingVolume locs ∧ target < 0 then some .typeError
      else if boundingVolume locs = 0 ∨ a = 0 then some .zeroDivisionError
      else none
    | _, _ =>
      if 0 < boundingVolume locs ∧ target < 0 then some .typeError
      else if boundingVolume locs = 0 then some .zeroDivisionError
      else none

/-- Lines 53–58 of the source: the falloff radius.  `rmax` is the volume
heuristic `(A / 4 / sqrt(2) / N) ** (1/3)`; when the input is constrained
to a 2D surface and a mesh area is available, it is tightened to
`min(rmax, sqrt(mesh_area / 2 / sqrt(3) / N))`. -/
noncomputable def rmaxOf (A : ℚ) (target : ℤ) (isVolume : Bool)
    (meshArea : Option ℚ) : ℝ :=
  let r1 : ℝ := ((A : ℝ) / 4 / Real.sqrt 2 / (target : ℝ)) ^ ((1 : ℝ) / 3)
  match isVolume, meshArea with
  | false, some a => min r1 (Real.sqrt ((a : ℝ) / 2 / Real.sqrt 3 / (target : ℝ)))
  | _, _ => r1

/-- Lines 60–63 of the source: `rmin = rmax * (1 - (N / M) ** gamma) * beta`
with `gamma = 1.5` and `beta = 0.65`. -/
noncomputable def rminOf (rmax : ℝ) (target : ℤ) (M : ℕ) : ℝ :=
  rmax * (1 - ((target : ℝ) / (M : ℝ)) ^ ((3 : ℝ) / 2)) * (13 / 20)

/-- Line 102 of the source: `adj_d(d) = min(d, 2 * rmax)`. -/
noncomputable def adj_d (rmax dv : ℝ) : ℝ := min dv (2 * rmax)

/-- Lines 104–105 of the source: the weight contribution
`w(d) = (1 - adj_d(d) / 2 / rmax) ** alpha` with `alpha = 8` (line 41). -/
noncomputable def w (rmax dv : ℝ) : ℝ :=
  (1 - adj_d rmax dv / 2 / rmax) ^ (8 : ℕ)

/-- A `HeapItem` (lines 22–29 of the source): a tracked weight paired with
the point's identifier.  The reversed `__lt__` making `heapq` a max-heap is
realised by `maxIdx`. -/
structure HeapItem : Type where
  weight : ℝ
  index : ℕ

/-- The KD-tree range query `self.tree.find_range(c, r)` (built over all of
`locations`, lines 36–39): every inserted `(index, location)` whose distance
to `c` is at most `r`, as `(index, distance)` pairs — including the query
point itself at distance `0` when `c` is an inserted location.  The tree is
built once and never loses points. -/
noncomputable def findRange (locs : List (ℕ × Q3)) (c : Q3) (r : ℝ) :
    List (ℕ × ℝ) :=
  locs.filterMap fun e =>
    if dist3 c e.2 ≤ r then some (e.1, dist3 c e.2) else none

/-- Lines 69–71 of the source: the initial weight of the point at location
`c` is the sum of `w(d)` over every `find_range(c, 2 * rmax)` result. -/
noncomputable def initWeight (locs : List (ℕ × Q3)) (rmax : ℝ) (c : Q3) : ℝ :=
  ((findRange locs c (2 * rmax)).map fun e => w rmax e.2).sum

/-- Dictionary lookup `self.locations[index]`; the default is junk, returned
only for identifiers that are not keys (which a run never asks for). -/
def lookupLoc (locs : List (ℕ × Q3)) (i : ℕ) : Q3 :=
  (locs.lookup i).getD ((0 : ℚ), (0 : ℚ), (0 : ℚ))

/-- The state of a `SampleEliminator` instance:

* `locations` — the caller's `index ↦ location` dictionary, as the
  association list of its items in iteration order;
* `target`, `current` — `self.target_samples` and `self.current_samples`;
* `rmax`, `rmin` — the two radii, computed once in `__init__`;
* `live` — the identifiers of the items currently in `self.heap`, in list
  order (the heap's tie-break order);
* `weights` — `self.heap_items[i].weight`; entries for popped items remain
  (and keep being decremented), exactly as `self.heap_items` retains every
  `HeapItem` ever created. -/
structure EngineState : Type where
  locations : List (ℕ × Q3)
  target : ℤ
  current : ℕ
  rmax : ℝ
  rmin : ℝ
  live : List ℕ
  weights : ℕ → ℝ

/-- The engine state `SampleEliminator.__init__` constructs when it raises
no exception: `current_samples = len(locations)`, the two radii, and the
heap loaded with every identifier and its initial weight (lines 41–74). -/
noncomputable def initState (locs : List (ℕ × Q3)) (target : ℤ)
    (isVolume : Bool) (meshArea : Option ℚ) : EngineState :=
  { locations := locs
    target := target
    current := locs.length
    rmax := rmaxOf (boundingVolume locs) target isVolume meshArea
    rmin := rminOf (rmaxOf (boundingVolume locs) target isVolume meshArea)
      target locs.length
    live := locs.map Prod.fst
    weights := fun i =>
      initWeight locs (rmaxOf (boundingVolume locs) target isVolume meshArea)
        (lookupLoc locs i) }

/-- `SampleEliminator.__init__(locations, target_samples, is_volume,
mesh_area)` (lines 32–74): either the Python exception it raises (see
`validate`) or the constructed engine state. -/
noncomputable def init (locs : List (ℕ × Q3)) (target : ℤ) (isVolume : Bool)
    (meshArea : Option ℚ) : Except PyError EngineState :=
  match validate locs target isVolume meshArea with
  | some e => .error e
  | none => .ok (initState locs target isVolume meshArea)

/-- The identifier holding the maximal weight, first occurrence winning
ties: the item `heapq.heappop` removes from the heap maintained with the
reversed `HeapItem` comparator (tie order fixed by the model, see the file
header). -/
noncomputable def maxIdx (wt : ℕ → ℝ) : List ℕ → Option ℕ
  | [] => none
  | a :: rest =>
    match maxIdx wt rest with
    | none => some a
    | some b => if wt a < wt b then some b else some a

/-- `heapq.heappop(self.heap)`: removes the maximal-weight identifier from
the live list, or fails (`IndexError`) on an empty heap. -/
noncomputable def popMax (l : List ℕ) (wt : ℕ → ℝ) : Option (ℕ × List ℕ) :=
  match maxIdx wt l with
  | none => none
  | some i => some (i, l.erase i)

/-- `SampleEliminator.eliminate_one` (lines 76–85): pop the maximal-weight
item, then for every `(location2, index2, d)` in
`find_range(location, 2 * rmax)` decrement `heap_items[index2].weight` by
`w(d)` — note this touches already-popped items and the popped item itself,
harmlessly, since only `live` entries matter — and decrement
`current_samples`.  Also returns the popped item (ghost instrumentation
recording the extraction). -/
noncomputable def eliminateOne (s : EngineState) :
    Except PyError (EngineState × HeapItem) :=
  match popMax s.live s.weights with
  | none => .error .indexError
  | some (i, rest) =>
    let item : HeapItem := ⟨s.weights i, i⟩
    let c := lookupLoc s.locations i
    let nbrs := findRange s.locations c (2 * s.rmax)
    let weights' := nbrs.foldl
      (fun f e => Function.update f e.1 (f e.1 - w s.rmax e.2)) s.weights
    .ok ({ s with live := rest, weights := weights', current := s.current - 1 },
         item)

/-- The `while self.current_samples > self.target_samples` loop of
`SampleEliminator.eliminate` (lines 87–89), with a fuel argument making the
recursion structural; `eliminate` supplies `current + 1` fuel, which is
always enough (each iteration decrements `current`, and once `current = 0`
the heap is empty so the pop fails), so the out-of-fuel base case is never
reached from `eliminate`.  The popped items are accumulated in order as a
ghost extraction trace. -/
noncomputable def eliminateAux :
    ℕ → EngineState → List HeapItem → Except PyError (EngineState × List HeapItem)
  | 0, s, tr => .ok (s, tr)
  | fuel + 1, s, tr =>
    if s.target < (s.current : ℤ) then
      match eliminateOne s with
      | .error e => .error e
      | .ok (s', item) => eliminateAux fuel s' (tr ++ [item])
    else .ok (s, tr)

/-- `SampleEliminator.eliminate` (lines 87–89), with the ghost extraction
trace. -/
noncomputable def eliminate (s : EngineState) :
    Except PyError (EngineState × List HeapItem) :=
  eliminateAux (s.current + 1) s []

/-- `SampleEliminator.get_indices` (lines 91–92): the identifiers of the
items remaining in the heap. -/
def getIndices (s : EngineState) : List ℕ := s.live

/-- Construct the engine and run the elimination loop, returning the final
engine state (the usage pattern of lines 172–174 of the source). -/
noncomputable def runState (locs : List (ℕ × Q3)) (target : ℤ)
    (isVolume : Bool) (meshArea : Option ℚ) : Except PyError EngineState :=
  (init locs target isVolume meshArea).bind fun s =>
    (eliminate s).map Prod.fst

/-- The full pipeline `SampleEliminator(...)`, `eliminate()`,
`get_indices()`: the surviving identifiers, or the Python exception. -/
noncomputable def run (locs : List (ℕ × Q3)) (target : ℤ) (isVolume : Bool)
    (meshArea : Option ℚ) : Except PyError (List ℕ) :=
  (runState locs target isVolume meshArea).map getIndices

/-- The falloff-radius formula exactly as the specification words it:
`rmax_vol = (boundingVolume / (4 * sqrt(2) * N)) ^ (1/3)`, and in surface
mode with a reference area also
`rmax_surf = sqrt(area / (2 * sqrt(3) * N))`, taking the minimum.  Stated
from the spec's words, to be compared with `rmaxOf` (translated from the
source). -/
noncomputable def specRmax (A : ℚ) (target : ℤ) (isVolume : Bool)
    (meshArea : Option ℚ) : ℝ :=
  let rvol : ℝ := ((A : ℝ) / (4 * Real.sqrt 2 * (target : ℝ))) ^ ((1 : ℝ) / 3)
  match isVolume, meshArea with
  | false, some a =>
    min rvol (Real.sqrt ((a : ℝ) / (2 * Real.sqrt 3 * (target : ℝ))))
  | _, _ => rvol

/-- The weight formula exactly as the specification words it:
`(1 - clamp(d, 0, 2*rmax) / (2*rmax)) ^ 8`.  Stated from the spec's words,
to be compared with `w` (translated from the source). -/
noncomputable def specWeight (rmax dv : ℝ) : ℝ :=
  (1 - max 0 (min dv (2 * rmax)) / (2 * rmax)) ^ (8 : ℕ)

/-- The reference value claimed for a live point's tracked weight: the sum
of `w(distance(p, r))` over the currently-live points `r` other than `p`
within `2*rmax` of `p` (the self-excluding sum of claim C2's wording). -/
noncomputable def liveWeightSumExcl (s : EngineState) (p : ℕ) : ℝ :=
  (((findRange s.locations (lookupLoc s.locations p) (2 * s.rmax)).filter
      fun e => e.1 ∈ s.live ∧ e.1 ≠ p).map fun e => w s.rmax e.2).sum

/-- The same sum but over every live entry the KD-tree query returns,
including `p`'s own zero-distance entry: the value the code's stored weight
actually tracks. -/
noncomputable def liveWeightSumIncl (s : EngineState) (p : ℕ) : ℝ :=
  (((findRange s.locations (lookupLoc s.locations p) (2 * s.rmax)).filter
      fun e => e.1 ∈ s.live).map fun e => w s.rmax e.2).sum

/-- The weight-tracking invariant the engine actually maintains: every live
point's stored weight is the sum of contributions of the live KD-tree
results around it, its own entry included. -/
def WeightInvariant (s : EngineState) : Prop :=
  ∀ p ∈ s.live, s.weights p = liveWeightSumIncl s p

/-- Modelled from the spec (section 4.3, claim C10): the reference
implementation's initial per-point weight, which excludes the query point's
own entry from its range query. -/
noncomputable def specInitWeight (locs : List (ℕ × Q3)) (rmax : ℝ) (i : ℕ)
    (c : Q3) : ℝ :=
  (((findRange locs c (2 * rmax)).filter fun e => e.1 ≠ i).map
      fun e => w rmax e.2).sum

/-- Modelled from the spec (section 4.4 Build, claim C10): the reference
engine's state after construction — identical to `initState` except that
the initial weights exclude the self-contribution. -/
noncomputable def specInitState (locs : List (ℕ × Q3)) (target : ℤ)
    (isVolume : Bool) (meshArea : Option ℚ) : EngineState :=
  { initState locs target isVolume meshArea with
    weights := fun i =>
      specInitWeight locs (rmaxOf (boundingVolume locs) target isVolume meshArea)
        i (lookupLoc locs i) }

/-- Modelled from the spec (section 4.4 Build, claim C10): the reference
engine's construction — identical to `init` except that the initial weights
exclude the self-contribution. -/
noncomputable def specInit (locs : List (ℕ × Q3)) (target : ℤ)
    (isVolume : Bool) (meshArea : Option ℚ) : Except PyError EngineState :=
  match validate locs target isVolume meshArea with
  | some e => .error e
  | none => .ok (specInitState locs target isVolume meshArea)

/-- Modelled from the spec (section 4.4 steps a–d, claim C10): one
elimination step of the reference engine, decrementing only the neighbours
still present in the priority structure (the extracted point is already
gone, so no self-decrement happens either). -/
noncomputable def specEliminateOne (s : EngineState) :
    Except PyError (EngineState × HeapItem) :=
  match popMax s.live s.weights with
  | none => .error .indexError
  | some (i, rest) =>
    let item : HeapItem := ⟨s.weights i, i⟩
    let c := lookupLoc s.locations i
    let nbrs := (findRange s.locations c (2 * s.rmax)).filter
      fun e => e.1 ∈ rest
    let weights' := nbrs.foldl
      (fun f e => Function.update f e.1 (f e.1 - w s.rmax e.2)) s.weights
    .ok ({ s with live := rest, weights := weights', current := s.current - 1 },
         item)

/-- Modelled from the spec: the reference engine's elimination loop, same
structure and fuel as `eliminateAux`. -/
noncomputable def specEliminateAux :
    ℕ → EngineState → List HeapItem → Except PyError (EngineState × List HeapItem)
  | 0, s, tr => .ok (s, tr)
  | fuel + 1, s, tr =>
    if s.target < (s.current : ℤ) then
      match specEliminateOne s with
      | .error e => .error e
      | .ok (s', item) => specEliminateAux fuel s' (tr ++ [item])
    else .ok (s, tr)

/-- Modelled from the spec: the reference engine's `eliminate`. -/
noncomputable def specEliminate (s : EngineState) :
    Except PyError (EngineState × List HeapItem) :=
  specEliminateAux (s.current + 1) s []

/-- A concrete well-formed input: four points spanning a unit bounding box,
all pairwise distances exceeding `2 * rmax`. -/
def c4pts : List (ℕ × Q3) :=
  [(0, (0, 0, 0)), (1, (1, 0, 0)), (2, (0, 1, 0)), (3, (0, 0, 1))]

/-- A concrete degenerate input: a single point, so every bounding extent is
zero. -/
def onePt : List (ℕ × Q3) := [(0, (0, 0, 0))]

/-- A concrete degenerate input: two points whose bounding box is flat in
`z`, so the bounding volume is zero. -/
def flatPts : List (ℕ × Q3) := [(0, (0, 0, 0)), (1, (1, 1, 0))]

/-- A concrete engine state with one live identifier, used to exercise a
single elimination step at a concrete input. -/
noncomputable def stateW : EngineState :=
  { locations := []
    target := 0
    current := 1
    rmax := 1
    rmin := 0
    live := [5]
    weights := fun _ => 0 }

/-- The state `stateW` steps to: the single item popped, nothing decremented
(its location list is empty, so the range query is empty). -/
noncomputable def stateW2 : EngineState :=
  { stateW with live := [], current := 0 }

/-! ## Basic facts about the geometry helpers -/

lemma foldl_min_le (xs : List ℚ) : ∀ a : ℚ, xs.foldl min a ≤ a := by
  induction xs with
  | nil => intro a; simp
  | cons x xs ih => intro a; exact le_trans (ih (min a x)) (min_le_left a x)

lemma le_foldl_max (xs : List ℚ) : ∀ a : ℚ, a ≤ xs.foldl max a := by
  induction xs with
  | nil => intro a; simp
  | cons x xs ih => intro a; exact le_trans (le_max_left a x) (ih (max a x))

lemma listMin_le_listMax {l : List ℚ} (h : l ≠ []) : listMin l ≤ listMax l := by
  cases l with
  | nil => exact absurd rfl h
  | cons x xs =>
    exact le_trans (foldl_min_le xs x) (le_foldl_max xs x)

lemma extent_nonneg {locs : List (ℕ × Q3)} (h : locs ≠ []) (f : Q3 → ℚ) :
    0 ≤ extent locs f := by
  have hm : locs.map (fun e => f e.2) ≠ [] := by
    simpa using h
  have := listMin_le_listMax hm
  unfold extent
  linarith

lemma boundingVolume_nonneg {locs : List (ℕ × Q3)} (h : locs ≠ []) :
    0 ≤ boundingVolume locs :=
  mul_nonneg (mul_nonneg (extent_nonneg h _) (extent_nonneg h _))
    (extent_nonneg h _)

lemma sqDist_nonneg (a b : Q3) : 0 ≤ sqDist a b := by
  unfold sqDist
  positivity

lemma sqDist_comm (a b : Q3) : sqDist a b = sqDist b a := by
  unfold sqDist
  ring

lemma sqDist_self (a : Q3) : sqDist a a = 0 := by
  unfold sqDist
  ring

lemma dist3_symm (a b : Q3) : dist3 a b = dist3 b a := by
  unfold dist3
  rw [sqDist_comm]

lemma dist3_self (a : Q3) : dist3 a a = 0 := by
  unfold dist3
  rw [sqDist_self]
  simp

lemma dist3_nonneg (a b : Q3) : 0 ≤ dist3 a b :=
  Real.sqrt_nonneg _

/-! ## Facts about the weight function -/

lemma w_nonneg (rmax dv : ℝ) : 0 ≤ w rmax dv := by
  have h : w rmax dv = ((1 - adj_d rmax dv / 2 / rmax) ^ 4) ^ 2 := by
    unfold w
    ring
  rw [h]
  exact sq_nonneg _

lemma w_zero {rmax : ℝ} (hr : 0 < rmax) : w rmax 0 = 1 := by
  unfold w adj_d
  rw [min_eq_left (by linarith : (0 : ℝ) ≤ 2 * rmax)]
  simp

/-! ## Facts about the range query -/

lemma findRange_eq (locs : List (ℕ × Q3)) (c : Q3) (r : ℝ) :
    findRange locs c r
      = (locs.filter fun e => dist3 c e.2 ≤ r).map fun e => (e.1, dist3 c e.2) := by
  induction locs with
  | nil => rfl
  | cons e l ih =>
    by_cases h : dist3 c e.2 ≤ r
    · simp only [findRange, List.filterMap_cons, if_pos h, List.filter_cons,
        decide_eq_true_eq, h, if_true, List.map_cons]
      exact congrArg _ ih
    · simp only [findRange, List.filterMap_cons, if_neg h, List.filter_cons,
        decide_eq_true_eq, h, if_false]
      exact ih

lemma mem_findRange {locs : List (ℕ × Q3)} {c : Q3} {r : ℝ} {e : ℕ × ℝ} :
    e ∈ findRange locs c r ↔
      ∃ lc, (e.1, lc) ∈ locs ∧ dist3 c lc ≤ r ∧ e.2 = dist3 c lc := by
  rw [findRange_eq]
  simp only [List.mem_map, List.mem_filter, decide_eq_true_eq]
  constructor
  · rintro ⟨a, ⟨ha, hd⟩, he⟩
    refine ⟨a.2, ?_, hd, ?_⟩
    · have : a = (e.1, a.2) := by
        rw [← he]
      rwa [← this]
    · rw [← he]
  · rintro ⟨lc, hm, hd, he⟩
    refine ⟨(e.1, lc), ⟨hm, hd⟩, ?_⟩
    cases e with
    | mk i dv =>
      simp only at he
      rw [he]

lemma findRange_keys_sublist (locs : List (ℕ × Q3)) (c : Q3) (r : ℝ) :
    ((findRange locs c r).map Prod.fst).Sublist (locs.map Prod.fst) := by
  rw [findRange_eq, List.map_map]
  have h : ((locs.filter fun e => dist3 c e.2 ≤ r).map Prod.fst).Sublist
      (locs.map Prod.fst) :=
    (List.filter_sublist locs).map Prod.fst
  simpa [Function.comp] using h

lemma findRange_keys_nodup {locs : List (ℕ × Q3)} (c : Q3) (r : ℝ)
    (h : (locs.map Prod.fst).Nodup) :
    ((findRange locs c r).map Prod.fst).Nodup :=
  h.sublist (findRange_keys_sublist locs c r)

/-! ## Filtering an association list on a key -/

lemma filter_fst_eq_nil {L : List (ℕ × ℝ)} {j : ℕ}
    (h : j ∉ L.map Prod.fst) :
    L.filter (fun e => e.1 = j) = [] := by
  induction L with
  | nil => rfl
  | cons e L ih =>
    simp only [List.map_cons, List.mem_cons, not_or] at h
    rw [List.filter_cons, if_neg (by simpa using fun hh => h.1 hh.symm)]
    exact ih h.2

lemma filter_fst_eq_of_nodup {L : List (ℕ × ℝ)}
    (hn : (L.map Prod.fst).Nodup) {j : ℕ} {dv : ℝ} (hm : (j, dv) ∈ L) :
    L.filter (fun e => e.1 = j) = [(j, dv)] := by
  induction L with
  | nil => exact absurd hm (List.not_mem_nil _)
  | cons e L ih =>
    simp only [List.map_cons, List.nodup_cons] at hn
    rcases List.mem_cons.mp hm with he | hm2
    · subst he
      rw [List.filter_cons, if_pos (by simp)]
      rw [filter_fst_eq_nil (by simpa using hn.1)]
    · have hne : e.1 ≠ j := by
        intro hh
        apply hn.1
        rw [hh]
        exact List.mem_map.mpr ⟨(j, dv), hm2, rfl⟩
      rw [List.filter_cons, if_neg (by simpa using hne)]
      exact ih hn.2 hm2

/-! ## The pointwise effect of the decrement fold -/

lemma foldl_update_sub (g : ℕ × ℝ → ℝ) :
    ∀ (L : List (ℕ × ℝ)) (f : ℕ → ℝ) (j : ℕ),
      (L.foldl (fun f e => Function.update f e.1 (f e.1 - g e)) f) j
        = f j - ((L.filter fun e => e.1 = j).map g).sum := by
  intro L
  induction L with
  | nil => intro f j; simp
  | cons e L ih =>
    intro f j
    rw [List.foldl_cons, ih]
    by_cases h : e.1 = j
    · rw [List.filter_cons, if_pos (by simpa using h)]
      rw [Function.update_apply, if_pos h.symm, h]
      simp only [List.map_cons, List.sum_cons]
      ring
    · rw [List.filter_cons, if_neg (by simpa using h)]
      rw [Function.update_apply, if_neg (fun hh => h hh.symm)]

/-! ## Facts about the maximum extraction -/

lemma maxIdx_eq_none {wt : ℕ → ℝ} {l : List ℕ} :
    maxIdx wt l = none ↔ l = [] := by
  cases l with
  | nil => simp [maxIdx]
  | cons a rest =>
    simp only [maxIdx]
    cases maxIdx wt rest with
    | none => simp
    | some b =>
      by_cases hc : wt a < wt b
      · simp [hc]
      · simp [hc]

lemma maxIdx_mem {wt : ℕ → ℝ} :
    ∀ {l : List ℕ} {i : ℕ}, maxIdx wt l = some i → i ∈ l := by
  intro l
  induction l with
  | nil => intro i h; simp [maxIdx] at h
  | cons a rest ih =>
    intro i h
    cases hr : maxIdx wt rest with
    | none =>
      simp only [maxIdx, hr, Option.some.injEq] at h
      rw [← h]
      exact List.mem_cons_self a rest
    | some b =>
      simp only [maxIdx, hr] at h
      by_cases hc : wt a < wt b
      · rw [if_pos hc] at h
        simp only [Option.some.injEq] at h
        rw [← h]
        exact List.mem_cons_of_mem a (ih hr)
      · rw [if_neg hc] at h
        simp only [Option.some.injEq] at h
        rw [← h]
        exact List.mem_cons_self a rest

lemma maxIdx_le {wt : ℕ → ℝ} :
    ∀ {l : List ℕ} {i : ℕ}, maxIdx wt l = some i → ∀ j ∈ l, wt j ≤ wt i := by
  intro l
  induction l with
  | nil => intro i h; simp [maxIdx] at h
  | cons a rest ih =>
    intro i h j hj
    cases hr : maxIdx wt rest with
    | none =>
      simp only [maxIdx, hr, Option.some.injEq] at h
      have hrest : rest = [] := maxIdx_eq_none.mp hr
      rw [hrest] at hj
      simp only [List.mem_singleton] at hj
      rw [hj, ← h]
    | some b =>
      simp only [maxIdx, hr] at h
      rcases List.mem_cons.mp hj with hja | hjr
      · by_cases hc : wt a < wt b
        · rw [if_pos hc] at h
          simp only [Option.some.injEq] at h
          rw [hja, ← h]
          exact le_of_lt hc
        · rw [if_neg hc] at h
          simp only [Option.some.injEq] at h
          rw [hja, ← h]
      · by_cases hc : wt a < wt b
        · rw [if_pos hc] at h
          simp only [Option.some.injEq] at h
          rw [← h]
          exact ih hr j hjr
        · rw [if_neg hc] at h
          simp only [Option.some.injEq] at h
          rw [← h]
          exact le_trans (ih hr j hjr) (not_lt.mp hc)

lemma maxIdx_shift {f g : ℕ → ℝ} {c : ℝ} :
    ∀ {l : List ℕ}, (∀ j ∈ l, f j = g j + c) → maxIdx f l = maxIdx g l := by
  intro l
  induction l with
  | nil => intro _; rfl
  | cons a rest ih =>
    intro h
    have hrest : ∀ j ∈ rest, f j = g j + c :=
      fun j hj => h j (List.mem_cons_of_mem a hj)
    cases hr : maxIdx g rest with
    | none => simp only [maxIdx, ih hrest, hr]
    | some b =>
      have hb : b ∈ rest := maxIdx_mem hr
      have hfa : f a = g a + c := h a (List.mem_cons_self a rest)
      have hfb : f b = g b + c := hrest b hb
      simp only [maxIdx, ih hrest, hr]
      by_cases hc : g a < g b
      · rw [if_pos (by rw [hfa, hfb]; linarith), if_pos hc]
      · rw [if_neg (by rw [hfa, hfb]; intro hh; exact hc (by linarith)),
          if_neg hc]

lemma popMax_eq_none {l : List ℕ} {wt : ℕ → ℝ} :
    popMax l wt = none ↔ l = [] := by
  unfold popMax
  cases hr : maxIdx wt l with
  | none => simpa using maxIdx_eq_none.mp hr
  | some b =>
    simp only [Option.some.injEq]
    constructor
    · intro h; exact absurd h (by simp)
    · intro h
      rw [h] at hr
      simp [maxIdx] at hr

lemma popMax_some {l : List ℕ} {wt : ℕ → ℝ} {i : ℕ} {rest : List ℕ}
    (h : popMax l wt = some (i, rest)) :
    maxIdx wt l = some i ∧ rest = l.erase i := by
  unfold popMax at h
  cases hr : maxIdx wt l with
  | none => rw [hr] at h; exact absurd h (by simp)
  | some b =>
    rw [hr] at h
    simp only [Option.some.injEq, Prod.mk.injEq] at h
    obtain ⟨h1, h2⟩ := h
    subst h1
    exact ⟨rfl, h2.symm⟩

/-! ## The single elimination step -/

lemma eliminateOne_ok {s s2 : EngineState} {item : HeapItem}
    (h : eliminateOne s = .ok (s2, item)) :
    item.index ∈ s.live ∧
    item.weight = s.weights item.index ∧
    (∀ j ∈ s.live, s.weights j ≤ item.weight) ∧
    s2.locations = s.locations ∧ s2.target = s.target ∧ s2.rmax = s.rmax ∧
    s2.rmin = s.rmin ∧ s2.current = s.current - 1 ∧
    s2.live = s.live.erase item.index ∧
    ∀ j, s2.weights j = s.weights j -
      (((findRange s.locations (lookupLoc s.locations item.index)
          (2 * s.rmax)).filter fun e => e.1 = j).map fun e => w s.rmax e.2).sum := by
  unfold eliminateOne at h
  cases hp : popMax s.live s.weights with
  | none => rw [hp] at h; exact absurd h (by simp)
  | some pr =>
    obtain ⟨i, rest⟩ := pr
    rw [hp] at h
    simp only [Except.ok.injEq, Prod.mk.injEq] at h
    obtain ⟨hs2, hit⟩ := h
    obtain ⟨hmax, hrest⟩ := popMax_some hp
    have hidx : item.index = i := by rw [← hit]
    have hwt : item.weight = s.weights i := by rw [← hit]
    refine ⟨?_, ?_, ?_, ?_, ?_, ?_, ?_, ?_, ?_, ?_⟩
    · rw [hidx]; exact maxIdx_mem hmax
    · rw [hidx, hwt]
    · intro j hj
      rw [hwt]
      exact maxIdx_le hmax j hj
    · rw [← hs2]
    · rw [← hs2]
    · rw [← hs2]
    · rw [← hs2]
    · rw [← hs2]
    · rw [← hs2, hrest, hidx]
    · intro j
      rw [← hs2, hidx]
      exact foldl_update_sub (fun e => w s.rmax e.2) _ s.weights j

lemma eliminateOne_isOk {s : EngineState} (h : s.live ≠ []) :
    ∃ s2 item, eliminateOne s = .ok (s2, item) := by
  unfold eliminateOne
  cases hp : popMax s.live s.weights with
  | none => exact absurd (popMax_eq_none.mp hp) h
  | some pr =>
    obtain ⟨i, rest⟩ := pr
    exact ⟨_, _, rfl⟩

lemma weights_decrease {s s2 : EngineState} {item : HeapItem}
    (h : eliminateOne s = .ok (s2, item)) (j : ℕ) :
    s2.weights j ≤ s.weights j := by
  rw [((eliminateOne_ok h).2.2.2.2.2.2.2.2.2) j]
  have hs : 0 ≤ (((findRange s.locations
      (lookupLoc s.locations item.index) (2 * s.rmax)).filter
        fun e => e.1 = j).map fun e => w s.rmax e.2).sum := by
    apply List.sum_nonneg
    intro x hx
    obtain ⟨e, _, he⟩ := List.mem_map.mp hx
    rw [← he]
    exact w_nonneg _ _
  linarith

/-! ## Facts about input validation -/

lemma validate_vol (locs : List (ℕ × Q3)) (t : ℤ) (iv : Bool)
    (ar : Option ℚ) (hva : iv = true ∨ ar = none) :
    validate locs t iv ar =
      if locs.length = 0 then some .valueError
      else if t = 0 then some .zeroDivisionError
      else if 0 < boundingVolume locs ∧ t < 0 then some .typeError
      else if boundingVolume locs = 0 then some .zeroDivisionError
      else none := by
  rcases hva with hiv | har
  · rw [hiv]
    cases ar <;> rfl
  · rw [har]
    cases iv <;> rfl

lemma validate_surf (locs : List (ℕ × Q3)) (t : ℤ) (a : ℚ) :
    validate locs t false (some a) =
      if locs.length = 0 then some .valueError
      else if t = 0 then some .zeroDivisionError
      else if (0 < a ∧ t < 0) ∨ (a < 0 ∧ 0 < t) then some .valueError
      else if 0 < boundingVolume locs ∧ t < 0 then some .typeError
      else if boundingVolume locs = 0 ∨ a = 0 then some .zeroDivisionError
      else none := rfl

lemma validate_none_facts {locs : List (ℕ × Q3)} {t : ℤ} {iv : Bool}
    {ar : Option ℚ} (h : validate locs t iv ar = none) :
    locs ≠ [] ∧ 1 ≤ t ∧ 0 < boundingVolume locs ∧
      (∀ a : ℚ, iv = false → ar = some a → 0 < a) := by
  by_cases hva : iv = true ∨ ar = none
  · rw [validate_vol locs t iv ar hva] at h
    split_ifs at h with h0 ht hc hz
    have hne : locs ≠ [] := fun hh => h0 (by rw [hh]; rfl)
    have hA0 : 0 ≤ boundingVolume locs := boundingVolume_nonneg hne
    have hA : 0 < boundingVolume locs := lt_of_le_of_ne hA0 (Ne.symm hz)
    have htn : ¬ t < 0 := fun hlt => hc ⟨hA, hlt⟩
    refine ⟨hne, by omega, hA, ?_⟩
    rintro a hiv har
    rcases hva with hiv2 | har2
    · rw [hiv] at hiv2
      exact absurd hiv2 (by simp)
    · rw [har] at har2
      exact absurd har2 (by simp)
  · push_neg at hva
    have hiv : iv = false := by
      cases iv
      · rfl
      · exact absurd rfl hva.1
    obtain ⟨a, har⟩ : ∃ a, ar = some a := by
      cases ar with
      | none => exact absurd rfl hva.2
      | some a => exact ⟨a, rfl⟩
    rw [hiv, har, validate_surf] at h
    split_ifs at h with h0 ht hs hc hz
    push_neg at hz
    have hne : locs ≠ [] := fun hh => h0 (by rw [hh]; rfl)
    have hA0 : 0 ≤ boundingVolume locs := boundingVolume_nonneg hne
    have hA : 0 < boundingVolume locs := lt_of_le_of_ne hA0 (Ne.symm hz.1)
    have htn : ¬ t < 0 := fun hlt => hc ⟨hA, hlt⟩
    have ha0 : 0 ≤ a := by
      by_contra hlt
      push_neg at hlt
      exact hs (Or.inr ⟨hlt, by omega⟩)
    refine ⟨hne, by omega, hA, ?_⟩
    rintro b _ hb
    rw [har] at hb
    injection hb with hb
    rw [← hb]
    exact lt_of_le_of_ne ha0 (Ne.symm hz.2)

lemma validate_some_of_nonpos {locs : List (ℕ × Q3)} {t : ℤ} (iv : Bool)
    (ar : Option ℚ) (ht : t ≤ 0) :
    ∃ e, validate locs t iv ar = some e := by
  have hne : validate locs t iv ar ≠ none := by
    intro h
    have := (validate_none_facts h).2.1
    omega
  cases h : validate locs t iv ar with
  | none => exact absurd h hne
  | some e => exact ⟨e, rfl⟩

/-! ## Shape of a successful construction -/

lemma init_ok {locs : List (ℕ × Q3)} {t : ℤ} {iv : Bool} {ar : Option ℚ}
    (h : validate locs t iv ar = none) :
    init locs t iv ar = .ok (initState locs t iv ar) := by
  unfold init
  rw [h]

lemma init_error {locs : List (ℕ × Q3)} {t : ℤ} {iv : Bool} {ar : Option ℚ}
    {e : PyError} (h : validate locs t iv ar = some e) :
    init locs t iv ar = .error e := by
  unfold init
  rw [h]

lemma specInit_ok {locs : List (ℕ × Q3)} {t : ℤ} {iv : Bool} {ar : Option ℚ}
    (h : validate locs t iv ar = none) :
    specInit locs t iv ar = .ok (specInitState locs t iv ar) := by
  unfold specInit
  rw [h]

lemma initState_live (locs : List (ℕ × Q3)) (t : ℤ) (iv : Bool)
    (ar : Option ℚ) :
    (initState locs t iv ar).live = locs.map Prod.fst := rfl

lemma initState_current (locs : List (ℕ × Q3)) (t : ℤ) (iv : Bool)
    (ar : Option ℚ) :
    (initState locs t iv ar).current = locs.length := rfl

lemma initState_target (locs : List (ℕ × Q3)) (t : ℤ) (iv : Bool)
    (ar : Option ℚ) :
    (initState locs t iv ar).target = t := rfl

lemma initState_locations (locs : List (ℕ × Q3)) (t : ℤ) (iv : Bool)
    (ar : Option ℚ) :
    (initState locs t iv ar).locations = locs := rfl

lemma initState_rmax (locs : List (ℕ × Q3)) (t : ℤ) (iv : Bool)
    (ar : Option ℚ) :
    (initState locs t iv ar).rmax
      = rmaxOf (boundingVolume locs) t iv ar := rfl

lemma run_error {locs : List (ℕ × Q3)} {t : ℤ} {iv : Bool} {ar : Option ℚ}
    {e : PyError} (h : validate locs t iv ar = some e) :
    run locs t iv ar = .error e := by
  unfold run runState
  rw [init_error h]
  rfl

/-! ## Shape of the elimination loop -/

lemma eliminate_noop {s : EngineState} (h : ¬ s.target < (s.current : ℤ)) :
    eliminate s = .ok (s, []) := by
  unfold eliminate
  simp only [eliminateAux, if_neg h]

lemma eliminateAux_run :
    ∀ (fuel : ℕ) (s : EngineState) (tr : List HeapItem),
      s.live.length = s.current → s.live.Nodup → 1 ≤ s.target →
      s.current ≤ fuel →
      ∃ s2 tr2, eliminateAux fuel s tr = .ok (s2, tr ++ tr2) ∧
        s2.locations = s.locations ∧ s2.target = s.target ∧
        s2.rmax = s.rmax ∧ s2.rmin = s.rmin ∧
        s2.current = min s.current s.target.toNat ∧
        s2.live.length = s2.current ∧ s2.live.Nodup ∧ s2.live ⊆ s.live := by
  intro fuel
  induction fuel with
  | zero =>
    intro s tr hlen hnd ht hfuel
    have hc0 : s.current = 0 := Nat.le_zero.mp hfuel
    refine ⟨s, [], by simp [eliminateAux], rfl, rfl, rfl, rfl, ?_, hlen, hnd,
      fun x hx => hx⟩
    rw [hc0]
    simp
  | succ fuel ih =>
    intro s tr hlen hnd ht hfuel
    by_cases hc : s.target < (s.current : ℤ)
    · have hlive : s.live ≠ [] := by
        intro hh
        rw [hh] at hlen
        simp only [List.length_nil] at hlen
        omega
      obtain ⟨s3, item, hstep⟩ := eliminateOne_isOk hlive
      obtain ⟨hmem, hwt, hmax, hloc, htar, hrmax, hrmin, hcur, hliveEq, hwts⟩ :=
        eliminateOne_ok hstep
      have hlen3 : s3.live.length = s3.current := by
        rw [hliveEq, hcur, List.length_erase_of_mem hmem, hlen]
      have hnd3 : s3.live.Nodup := by
        rw [hliveEq]
        exact hnd.erase _
      have ht3 : 1 ≤ s3.target := by rw [htar]; exact ht
      have hfuel3 : s3.current ≤ fuel := by rw [hcur]; omega
      obtain ⟨s2, tr2, hrun, h1, h2, h3, h4, h5, h6, h7, h8⟩ :=
        ih s3 (tr ++ [item]) hlen3 hnd3 ht3 hfuel3
      refine ⟨s2, [item] ++ tr2, ?_, by rw [h1, hloc], by rw [h2, htar],
        by rw [h3, hrmax], by rw [h4, hrmin], ?_, h6, h7, ?_⟩
      · simp only [eliminateAux, if_pos hc, hstep]
        rw [hrun, List.append_assoc]
      · rw [h5, hcur, htar]
        omega
      · intro x hx
        have hx3 : x ∈ s3.live := h8 hx
        rw [hliveEq] at hx3
        exact List.erase_subset _ _ hx3
    · refine ⟨s, [], ?_, rfl, rfl, rfl, rfl, ?_, hlen, hnd, fun x hx => hx⟩
      · simp only [eliminateAux, if_neg hc]
        rw [List.append_nil]
      · omega

lemma eliminate_run {s : EngineState} (hlen : s.live.length = s.current)
    (hnd : s.live.Nodup) (ht : 1 ≤ s.target) :
    ∃ s2 tr2, eliminate s = .ok (s2, tr2) ∧
      s2.locations = s.locations ∧ s2.target = s.target ∧
      s2.rmax = s.rmax ∧ s2.rmin = s.rmin ∧
      s2.current = min s.current s.target.toNat ∧
      s2.live.length = s2.current ∧ s2.live.Nodup ∧ s2.live ⊆ s.live := by
  obtain ⟨s2, tr2, hrun, hs⟩ :=
    eliminateAux_run (s.current + 1) s [] hlen hnd ht (by omega)
  exact ⟨s2, tr2, by rw [eliminate, hrun, List.nil_append], hs⟩

lemma runState_ok {locs : List (ℕ × Q3)} {t : ℤ} {iv : Bool} {ar : Option ℚ}
    (hv : validate locs t iv ar = none)
    (hnd : (locs.map Prod.fst).Nodup) :
    ∃ s2, runState locs t iv ar = .ok s2 ∧
      s2.locations = locs ∧ s2.target = t ∧
      s2.rmax = rmaxOf (boundingVolume locs) t iv ar ∧
      s2.rmin = rminOf (rmaxOf (boundingVolume locs) t iv ar) t locs.length ∧
      s2.current = min locs.length t.toNat ∧
      s2.live.length = s2.current ∧ s2.live.Nodup ∧
      s2.live ⊆ locs.map Prod.fst := by
  have ht : 1 ≤ t := (validate_none_facts hv).2.1
  obtain ⟨s2, tr2, hrun, h1, h2, h3, h4, h5, h6, h7, h8⟩ :=
    eliminate_run (s := initState locs t iv ar)
      (by rw [initState_live, initState_current, List.length_map])
      (by rw [initState_live]; exact hnd) ht
  refine ⟨s2, ?_, h1, h2, h3, h4,
    by rw [h5, initState_current]; rfl, h6, h7, h8⟩
  rw [runState, init_ok hv]
  simp only [Except.bind]
  rw [hrun]
  rfl

/-! ## Evaluation of `validate` on the concrete inputs -/

lemma validate_c4pts_0 : validate c4pts 0 true none = some .zeroDivisionError := by
  norm_num [validate, c4pts]

lemma validate_c4pts_2 : validate c4pts 2 true none = none := by
  norm_num [validate, boundingVolume, extent, listMax, listMin, c4pts,
    max_def, min_def]

lemma validate_c4pts_4 : validate c4pts 4 true none = none := by
  norm_num [validate, boundingVolume, extent, listMax, listMin, c4pts,
    max_def, min_def]

lemma validate_c4pts_5 : validate c4pts 5 true none = none := by
  norm_num [validate, boundingVolume, extent, listMax, listMin, c4pts,
    max_def, min_def]

lemma validate_onePt_1 : validate onePt 1 true none = some .zeroDivisionError := by
  norm_num [validate, boundingVolume, extent, listMax, listMin, onePt,
    max_def, min_def]

lemma validate_flatPts_0 : validate flatPts 0 true none = some .zeroDivisionError := by
  norm_num [validate, flatPts]

lemma validate_flatPts_1 : validate flatPts 1 true none = some .zeroDivisionError := by
  norm_num [validate, boundingVolume, extent, listMax, listMin, flatPts,
    max_def, min_def]

lemma validate_empty_3 : validate [] 3 true none = some .valueError := by
  norm_num [validate]

lemma nodup_c4pts : (c4pts.map Prod.fst).Nodup := by
  norm_num [c4pts]

/-! ## Association-list facts -/

lemma lookupLoc_mem {locs : List (ℕ × Q3)} {p : ℕ}
    (h : p ∈ locs.map Prod.fst) : (p, lookupLoc locs p) ∈ locs := by
  induction locs with
  | nil => simp at h
  | cons e l ih =>
    obtain ⟨k, v⟩ := e
    by_cases hp : p = k
    · subst hp
      have hl : lookupLoc ((p, v) :: l) p = v := by
        unfold lookupLoc
        simp [List.lookup]
      rw [hl]
      exact List.mem_cons_self _ _
    · have hp2 : p ∈ l.map Prod.fst := by
        simp only [List.map_cons, List.mem_cons] at h
        rcases h with h | h
        · exact absurd h hp
        · exact h
      have hl : lookupLoc ((k, v) :: l) p = lookupLoc l p := by
        unfold lookupLoc
        have hbeq : (p == k) = false := beq_eq_false_iff_ne.mpr hp
        simp [List.lookup, hbeq]
      rw [hl]
      exact List.mem_cons_of_mem _ (ih hp2)

lemma nodup_keys_eq {locs : List (ℕ × Q3)}
    (hnd : (locs.map Prod.fst).Nodup) {p : ℕ} {a b : Q3}
    (ha : (p, a) ∈ locs) (hb : (p, b) ∈ locs) : a = b := by
  induction locs with
  | nil => simp at ha
  | cons e l ih =>
    simp only [List.map_cons, List.nodup_cons] at hnd
    rcases List.mem_cons.mp ha with h1 | h1 <;>
      rcases List.mem_cons.mp hb with h2 | h2
    · rw [← h1] at h2
      exact (Prod.mk.injEq _ _ _ _).mp h2.symm |>.2
    · exfalso
      apply hnd.1
      rw [← h1]
      exact List.mem_map.mpr ⟨(p, b), h2, rfl⟩
    · exfalso
      apply hnd.1
      rw [← h2]
      exact List.mem_map.mpr ⟨(p, a), h1, rfl⟩
    · exact ih hnd.2 h1 h2

lemma mem_findRange_keys {locs : List (ℕ × Q3)} {c : Q3} {r : ℝ} {j : ℕ} :
    j ∈ (findRange locs c r).map Prod.fst ↔
      ∃ lc, (j, lc) ∈ locs ∧ dist3 c lc ≤ r := by
  constructor
  · intro h
    obtain ⟨e, he, hj⟩ := List.mem_map.mp h
    obtain ⟨lc, h1, h2, _⟩ := mem_findRange.mp he
    refine ⟨lc, ?_, h2⟩
    rw [← hj]
    exact h1
  · rintro ⟨lc, h1, h2⟩
    exact List.mem_map.mpr
      ⟨(j, dist3 c lc), mem_findRange.mpr ⟨lc, h1, h2, rfl⟩, rfl⟩

/-! ## Splitting live-filtered sums -/

lemma sum_filter_erase_live (L : List (ℕ × ℝ)) (live : List ℕ)
    (hlive : live.Nodup) (q : ℕ) (hq : q ∈ live) (g : ℕ × ℝ → ℝ) :
    ((L.filter fun e => e.1 ∈ live.erase q).map g).sum
      = ((L.filter fun e => e.1 ∈ live).map g).sum
        - ((L.filter fun e => e.1 = q).map g).sum := by
  induction L with
  | nil => simp
  | cons e L ih =>
    by_cases heq : e.1 = q
    · have hc1 : q ∉ live.erase q :=
        fun hmem => (hlive.mem_erase_iff.mp hmem).1 rfl
      simp only [List.filter_cons, heq, decide_eq_true_eq]
      rw [if_neg hc1, if_pos hq]
      simp only [if_true, List.map_cons, List.sum_cons]
      rw [ih]
      ring
    · by_cases hin : e.1 ∈ live
      · have hc1 : e.1 ∈ live.erase q := hlive.mem_erase_iff.mpr ⟨heq, hin⟩
        simp only [List.filter_cons, decide_eq_true_eq]
        rw [if_pos hc1, if_pos hin, if_neg heq]
        simp only [List.map_cons, List.sum_cons]
        rw [ih]
        ring
      · have hc1 : e.1 ∉ live.erase q :=
          fun hmem => hin (hlive.mem_erase_iff.mp hmem).2
        simp only [List.filter_cons, decide_eq_true_eq]
        rw [if_neg hc1, if_neg hin, if_neg heq]
        exact ih

lemma sum_filter_ne_self (L : List (ℕ × ℝ)) (live : List ℕ) (p : ℕ)
    (hp : p ∈ live) (g : ℕ × ℝ → ℝ) :
    ((L.filter fun e => e.1 ∈ live).map g).sum
      = ((L.filter fun e => e.1 ∈ live ∧ e.1 ≠ p).map g).sum
        + ((L.filter fun e => e.1 = p).map g).sum := by
  induction L with
  | nil => simp
  | cons e L ih =>
    by_cases heq : e.1 = p
    · have hc3 : ¬ (p ∈ live ∧ p ≠ p) := fun hand => hand.2 rfl
      simp only [List.filter_cons, heq, decide_eq_true_eq]
      rw [if_pos hp, if_neg hc3]
      simp only [if_true, List.map_cons, List.sum_cons]
      rw [ih]
      ring
    · by_cases hin : e.1 ∈ live
      · have hc3 : e.1 ∈ live ∧ e.1 ≠ p := ⟨hin, heq⟩
        simp only [List.filter_cons, decide_eq_true_eq]
        rw [if_pos hin, if_pos hc3, if_neg heq]
        simp only [List.map_cons, List.sum_cons]
        rw [ih]
        ring
      · have hc3 : ¬ (e.1 ∈ live ∧ e.1 ≠ p) := fun hand => hin hand.1
        simp only [List.filter_cons, decide_eq_true_eq]
        rw [if_neg hin, if_neg hc3, if_neg heq]
        exact ih

/-! ## Positivity of the falloff radius on validated inputs -/

lemma rmaxOf_pos {locs : List (ℕ × Q3)} {t : ℤ} {iv : Bool} {ar : Option ℚ}
    (hv : validate locs t iv ar = none) :
    0 < rmaxOf (boundingVolume locs) t iv ar := by
  obtain ⟨hne, ht, hA, hsurf⟩ := validate_none_facts hv
  have htR : (0 : ℝ) < (t : ℝ) := by exact_mod_cast lt_of_lt_of_le one_pos ht
  have hAR : (0 : ℝ) < ((boundingVolume locs : ℚ) : ℝ) := by exact_mod_cast hA
  have hbase : (0 : ℝ)
      < ((boundingVolume locs : ℚ) : ℝ) / 4 / Real.sqrt 2 / (t : ℝ) :=
    div_pos (div_pos (div_pos hAR (by norm_num))
      (Real.sqrt_pos.mpr (by norm_num))) htR
  cases iv with
  | true =>
    cases ar with
    | none =>
      simp only [rmaxOf]
      exact Real.rpow_pos_of_pos hbase _
    | some a =>
      simp only [rmaxOf]
      exact Real.rpow_pos_of_pos hbase _
  | false =>
    cases ar with
    | none =>
      simp only [rmaxOf]
      exact Real.rpow_pos_of_pos hbase _
    | some a =>
      have ha : 0 < a := hsurf a rfl rfl
      have haR : (0 : ℝ) < (a : ℝ) := by exact_mod_cast ha
      simp only [rmaxOf]
      apply lt_min (Real.rpow_pos_of_pos hbase _)
      apply Real.sqrt_pos.mpr
      exact div_pos (div_pos (div_pos haR (by norm_num))
        (Real.sqrt_pos.mpr (by norm_num))) htR

/-! ## The weight-tracking invariant -/

lemma liveWeightSumIncl_initState (locs : List (ℕ × Q3)) (t : ℤ) (iv : Bool)
    (ar : Option ℚ) (p : ℕ) :
    liveWeightSumIncl (initState locs t iv ar) p
      = initWeight locs (rmaxOf (boundingVolume locs) t iv ar)
          (lookupLoc locs p) := by
  have hall : ∀ e ∈ findRange locs (lookupLoc locs p)
      (2 * rmaxOf (boundingVolume locs) t iv ar),
      decide (e.1 ∈ locs.map Prod.fst) = true := by
    intro e he
    simp only [decide_eq_true_eq]
    obtain ⟨lc, hlc, _, _⟩ := mem_findRange.mp he
    exact List.mem_map.mpr ⟨(e.1, lc), hlc, rfl⟩
  unfold liveWeightSumIncl initWeight
  rw [initState_locations, initState_rmax, initState_live,
    List.filter_eq_self.mpr hall]

lemma weightInvariant_init (locs : List (ℕ × Q3)) (t : ℤ) (iv : Bool)
    (ar : Option ℚ) : WeightInvariant (initState locs t iv ar) := by
  intro p _
  rw [liveWeightSumIncl_initState]
  rfl

lemma weightInvariant_step {s s2 : EngineState} {item : HeapItem}
    (hnd : (s.locations.map Prod.fst).Nodup)
    (hlnd : s.live.Nodup)
    (hsub : s.live ⊆ s.locations.map Prod.fst)
    (hstep : eliminateOne s = .ok (s2, item))
    (hinv : WeightInvariant s) :
    WeightInvariant s2 := by
  obtain ⟨hmem, hwt, hmax, hloc, htar, hrmax, hrmin, hcur, hliveEq, hwts⟩ :=
    eliminateOne_ok hstep
  intro p hp2
  have hp_ne : p ≠ item.index := by
    rw [hliveEq] at hp2
    exact (hlnd.mem_erase_iff.mp hp2).1
  have hp_live : p ∈ s.live := by
    rw [hliveEq] at hp2
    exact (hlnd.mem_erase_iff.mp hp2).2
  have hp_keys : p ∈ s.locations.map Prod.fst := hsub hp_live
  have hq_keys : item.index ∈ s.locations.map Prod.fst := hsub hmem
  have hploc : (p, lookupLoc s.locations p) ∈ s.locations :=
    lookupLoc_mem hp_keys
  have hqloc : (item.index, lookupLoc s.locations item.index) ∈ s.locations :=
    lookupLoc_mem hq_keys
  have hincl2 : liveWeightSumIncl s2 p
      = (((findRange s.locations (lookupLoc s.locations p)
          (2 * s.rmax)).filter
            fun e => e.1 ∈ s.live.erase item.index).map
          fun e => w s.rmax e.2).sum := by
    unfold liveWeightSumIncl
    rw [hloc, hrmax, hliveEq]
  rw [hincl2, sum_filter_erase_live _ s.live hlnd item.index hmem _,
    hwts p, hinv p hp_live]
  unfold liveWeightSumIncl
  congr 1
  by_cases hd : dist3 (lookupLoc s.locations item.index)
      (lookupLoc s.locations p) ≤ 2 * s.rmax
  · have hm1 : ((p, dist3 (lookupLoc s.locations item.index)
        (lookupLoc s.locations p)) : ℕ × ℝ)
        ∈ findRange s.locations (lookupLoc s.locations item.index)
          (2 * s.rmax) :=
      mem_findRange.mpr ⟨lookupLoc s.locations p, hploc, hd, rfl⟩
    have hd2 : dist3 (lookupLoc s.locations p)
        (lookupLoc s.locations item.index) ≤ 2 * s.rmax := by
      rw [dist3_symm]
      exact hd
    have hm2 : ((item.index, dist3 (lookupLoc s.locations p)
        (lookupLoc s.locations item.index)) : ℕ × ℝ)
        ∈ findRange s.locations (lookupLoc s.locations p) (2 * s.rmax) :=
      mem_findRange.mpr ⟨lookupLoc s.locations item.index, hqloc, hd2, rfl⟩
    rw [filter_fst_eq_of_nodup (findRange_keys_nodup _ _ hnd) hm1,
      filter_fst_eq_of_nodup (findRange_keys_nodup _ _ hnd) hm2]
    simp only [List.map_cons, List.map_nil, List.sum_cons, List.sum_nil]
    rw [dist3_symm (lookupLoc s.locations item.index) (lookupLoc s.locations p)]
  · have hnp : p ∉ (findRange s.locations
        (lookupLoc s.locations item.index) (2 * s.rmax)).map Prod.fst := by
      intro hmem2
      obtain ⟨lc, hlc, hdlc⟩ := mem_findRange_keys.mp hmem2
      rw [nodup_keys_eq hnd hlc hploc] at hdlc
      exact hd hdlc
    have hnq : item.index ∉ (findRange s.locations
        (lookupLoc s.locations p) (2 * s.rmax)).map Prod.fst := by
      intro hmem2
      obtain ⟨lc, hlc, hdlc⟩ := mem_findRange_keys.mp hmem2
      rw [nodup_keys_eq hnd hlc hqloc] at hdlc
      rw [dist3_symm] at hdlc
      exact hd hdlc
    rw [filter_fst_eq_nil hnp, filter_fst_eq_nil hnq]

lemma weightInvariant_run :
    ∀ (fuel : ℕ) (s : EngineState) (tr : List HeapItem) (s2 : EngineState)
      (tr2 : List HeapItem),
      eliminateAux fuel s tr = .ok (s2, tr2) →
      (s.locations.map Prod.fst).Nodup → s.live.Nodup →
      s.live ⊆ s.locations.map Prod.fst →
      WeightInvariant s → WeightInvariant s2 := by
  intro fuel
  induction fuel with
  | zero =>
    intro s tr s2 tr2 h hnd hlnd hsub hinv
    simp only [eliminateAux, Except.ok.injEq, Prod.mk.injEq] at h
    rw [← h.1]
    exact hinv
  | succ fuel ih =>
    intro s tr s2 tr2 h hnd hlnd hsub hinv
    by_cases hc : s.target < (s.current : ℤ)
    · simp only [eliminateAux, if_pos hc] at h
      cases hstep : eliminateOne s with
      | error e =>
        rw [hstep] at h
        exact absurd h (by simp)
      | ok pr =>
        obtain ⟨s3, item⟩ := pr
        rw [hstep] at h
        obtain ⟨hmem, _, _, hloc, _, _, _, _, hliveEq, _⟩ :=
          eliminateOne_ok hstep
        refine ih s3 (tr ++ [item]) s2 tr2 h ?_ ?_ ?_
          (weightInvariant_step hnd hlnd hsub hstep hinv)
        · rw [hloc]
          exact hnd
        · rw [hliveEq]
          exact hlnd.erase _
        · rw [hliveEq, hloc]
          exact fun x hx => hsub (List.erase_subset _ _ hx)
    · simp only [eliminateAux, if_neg hc, Except.ok.injEq, Prod.mk.injEq] at h
      rw [← h.1]
      exact hinv

lemma incl_eq_excl_add_one {s : EngineState}
    (hnd : (s.locations.map Prod.fst).Nodup)
    (hsub : s.live ⊆ s.locations.map Prod.fst)
    (hrpos : 0 < s.rmax) {p : ℕ} (hp : p ∈ s.live) :
    liveWeightSumIncl s p = liveWeightSumExcl s p + 1 := by
  have hploc : (p, lookupLoc s.locations p) ∈ s.locations :=
    lookupLoc_mem (hsub hp)
  unfold liveWeightSumIncl liveWeightSumExcl
  rw [sum_filter_ne_self _ s.live p hp _]
  congr 1
  have hd0 : dist3 (lookupLoc s.locations p) (lookupLoc s.locations p)
      ≤ 2 * s.rmax := by
    rw [dist3_self]
    linarith
  have hm : ((p, dist3 (lookupLoc s.locations p) (lookupLoc s.locations p))
      : ℕ × ℝ) ∈ findRange s.locations (lookupLoc s.locations p)
        (2 * s.rmax) :=
    mem_findRange.mpr ⟨lookupLoc s.locations p, hploc, hd0, rfl⟩
  rw [filter_fst_eq_of_nodup (findRange_keys_nodup _ _ hnd) hm]
  simp only [List.map_cons, List.map_nil, List.sum_cons, List.sum_nil]
  rw [dist3_self, w_zero hrpos]
  ring

/-! ## Claim C2 — the weight-conservation invariant -/

/-- C2 (amended): after elimination finishes, every surviving point's stored
weight equals the sum of `w(distance(p, r))` over the currently-surviving
KD-tree results around `p` INCLUDING `p`'s own zero-distance entry — the
range query does not exclude its centre, so the stored weight carries a
constant self-contribution `w(0) = 1`, and equals the claim's self-excluding
sum plus `1`.  Each eliminated neighbour's contribution is subtracted
exactly once. -/
theorem weight_conservation (locs : List (ℕ × Q3)) (t : ℤ) (iv : Bool)
    (ar : Option ℚ) (hv : validate locs t iv ar = none)
    (hnd : (locs.map Prod.fst).Nodup) :
    ∃ s2, runState locs t iv ar = .ok s2 ∧
      (∀ p ∈ s2.live, s2.weights p = liveWeightSumIncl s2 p) ∧
      (∀ p ∈ s2.live, liveWeightSumIncl s2 p = liveWeightSumExcl s2 p + 1) := by
  have ht : 1 ≤ t := (validate_none_facts hv).2.1
  have hrpos := rmaxOf_pos hv
  obtain ⟨s2, tr2, hrun, h1, h2, h3, h4, h5, h6, h7, h8⟩ :=
    eliminate_run (s := initState locs t iv ar)
      (by rw [initState_live, initState_current, List.length_map])
      (by rw [initState_live]; exact hnd) ht
  have hinv2 : WeightInvariant s2 := by
    have haux : eliminateAux ((initState locs t iv ar).current + 1)
        (initState locs t iv ar) [] = .ok (s2, tr2) := by
      rw [← hrun]
      rfl
    refine weightInvariant_run _ _ _ _ _ haux ?_ ?_ ?_
      (weightInvariant_init locs t iv ar)
    · rw [initState_locations]
      exact hnd
    · rw [initState_live]
      exact hnd
    · rw [initState_live, initState_locations]
      exact fun x hx => hx
  refine ⟨s2, ?_, fun p hp => hinv2 p hp, fun p hp => ?_⟩
  · rw [runState, init_ok hv]
    simp only [Except.bind]
    rw [hrun]
    rfl
  · refine incl_eq_excl_add_one ?_ ?_ ?_ hp
    · rw [h1, initState_locations]
      exact hnd
    · rw [h1, initState_locations]
      intro x hx
      have := h8 hx
      rw [initState_live] at this
      exact this
    · rw [h3, initState_rmax]
      exact hrpos

/-- Witness for C2 at the four-point input with `target_samples = 2`. -/
theorem weight_conservation_witness :
    validate c4pts 2 true none = none ∧ (c4pts.map Prod.fst).Nodup ∧
      ∃ s2, runState c4pts 2 true none = .ok s2 ∧
        (∀ p ∈ s2.live, s2.weights p = liveWeightSumIncl s2 p) ∧
        (∀ p ∈ s2.live, liveWeightSumIncl s2 p = liveWeightSumExcl s2 p + 1) :=
  ⟨validate_c4pts_2, nodup_c4pts,
    weight_conservation c4pts 2 true none validate_c4pts_2 nodup_c4pts⟩

/-! ## Concrete evaluation of the four-point engine -/

lemma boundingVolume_c4pts : boundingVolume c4pts = 1 := by
  norm_num [boundingVolume, extent, listMax, listMin, c4pts, max_def, min_def]

lemma sqrt2_pos : (0 : ℝ) < Real.sqrt 2 :=
  Real.sqrt_pos.mpr (by norm_num)

lemma one_lt_sqrt2 : (1 : ℝ) < Real.sqrt 2 := by
  have h := Real.sqrt_lt_sqrt (by norm_num : (0 : ℝ) ≤ 1)
    (by norm_num : (1 : ℝ) < 2)
  rwa [Real.sqrt_one] at h

lemma sqrt2_inv_lt_one : (Real.sqrt 2)⁻¹ < 1 :=
  inv_lt_one_of_one_lt₀ one_lt_sqrt2

lemma rmax_c4pts :
    rmaxOf (boundingVolume c4pts) 4 true none = (Real.sqrt 2)⁻¹ / 2 := by
  rw [boundingVolume_c4pts]
  have hc0 : (0 : ℝ) ≤ (Real.sqrt 2)⁻¹ / 2 := by positivity
  have hne : Real.sqrt 2 ≠ 0 := ne_of_gt sqrt2_pos
  have hbase : ((1 : ℚ) : ℝ) / 4 / Real.sqrt 2 / (((4 : ℤ) : ℤ) : ℝ)
      = ((Real.sqrt 2)⁻¹ / 2) ^ (3 : ℕ) := by
    have h3 : ((Real.sqrt 2)⁻¹ / 2) ^ (3 : ℕ)
        = ((Real.sqrt 2) ^ (3 : ℕ))⁻¹ / 8 := by
      rw [div_pow, inv_pow]
      norm_num
    have h5 : Real.sqrt 2 ^ (3 : ℕ) = 2 * Real.sqrt 2 := by
      rw [pow_succ, Real.sq_sqrt (by norm_num : (0 : ℝ) ≤ 2)]
    rw [h3, h5]
    push_cast
    rw [mul_inv]
    field_simp
    ring
  simp only [rmaxOf]
  rw [hbase, show (1 : ℝ) / 3 = ((3 : ℕ) : ℝ)⁻¹ by norm_num]
  exact Real.pow_rpow_inv_natCast hc0 (by norm_num)

lemma two_rmax_c4pts :
    2 * rmaxOf (boundingVolume c4pts) 4 true none = (Real.sqrt 2)⁻¹ := by
  rw [rmax_c4pts]
  ring

lemma rmax_c4pts_pos : 0 < rmaxOf (boundingVolume c4pts) 4 true none :=
  rmaxOf_pos validate_c4pts_4

lemma lookupLoc_c4pts_0 : lookupLoc c4pts 0 = ((0 : ℚ), (0 : ℚ), (0 : ℚ)) := rfl

lemma unit_dist_not_in_range {x y z : ℚ}
    (hsq : sqDist ((0 : ℚ), (0 : ℚ), (0 : ℚ)) (x, y, z) = 1) :
    ¬ dist3 ((0 : ℚ), (0 : ℚ), (0 : ℚ)) (x, y, z) ≤ (Real.sqrt 2)⁻¹ := by
  unfold dist3
  rw [hsq]
  push_cast
  rw [Real.sqrt_one]
  exact not_le.mpr sqrt2_inv_lt_one

lemma findRange_c4pts_0 :
    findRange c4pts ((0 : ℚ), (0 : ℚ), (0 : ℚ)) (Real.sqrt 2)⁻¹
      = [(0, dist3 ((0 : ℚ), (0 : ℚ), (0 : ℚ)) ((0 : ℚ), (0 : ℚ), (0 : ℚ)))] := by
  have h0 : dist3 ((0 : ℚ), (0 : ℚ), (0 : ℚ)) ((0 : ℚ), (0 : ℚ), (0 : ℚ))
      ≤ (Real.sqrt 2)⁻¹ := by
    rw [dist3_self]
    positivity
  have h1 := unit_dist_not_in_range (x := 1) (y := 0) (z := 0)
    (by norm_num [sqDist])
  have h2 := unit_dist_not_in_range (x := 0) (y := 1) (z := 0)
    (by norm_num [sqDist])
  have h3 := unit_dist_not_in_range (x := 0) (y := 0) (z := 1)
    (by norm_num [sqDist])
  rw [findRange_eq]
  simp only [c4pts, List.filter_cons, List.filter_nil, decide_eq_true_eq]
  rw [if_pos h0, if_neg h1, if_neg h2, if_neg h3]
  simp

/-- Counterexample to C2 as stated: run the engine on the four points
`(0,0,0), (1,0,0), (0,1,0), (0,0,1)` with `target_samples = 4` (no
eliminations).  Every pairwise distance (`1` or `sqrt 2`) exceeds
`2 * rmax = (sqrt 2)⁻¹`, so the claim's self-excluding sum for the surviving
point `0` is `0`; but the stored weight is `w(0) = 1`, because the range
query returned the point itself. -/
theorem weight_conservation_counterexample :
    ∃ s2, runState c4pts 4 true none = .ok s2 ∧ 0 ∈ s2.live ∧
      s2.weights 0 = 1 ∧ liveWeightSumExcl s2 0 = 0 ∧
      s2.weights 0 ≠ liveWeightSumExcl s2 0 := by
  have hrun : runState c4pts 4 true none
      = .ok (initState c4pts 4 true none) := by
    rw [runState, init_ok validate_c4pts_4]
    simp only [Except.bind]
    rw [eliminate_noop (s := initState c4pts 4 true none) (by
      rw [initState_current, initState_target]
      norm_num [c4pts])]
    rfl
  have hw : (initState c4pts 4 true none).weights 0 = 1 := by
    have hpr : (initState c4pts 4 true none).weights 0
        = initWeight c4pts (rmaxOf (boundingVolume c4pts) 4 true none)
            (lookupLoc c4pts 0) := rfl
    rw [hpr, lookupLoc_c4pts_0]
    unfold initWeight
    rw [two_rmax_c4pts, findRange_c4pts_0]
    simp only [List.map_cons, List.map_nil, List.sum_cons, List.sum_nil]
    rw [dist3_self, w_zero rmax_c4pts_pos, add_zero]
  have he : liveWeightSumExcl (initState c4pts 4 true none) 0 = 0 := by
    unfold liveWeightSumExcl
    rw [initState_locations, initState_rmax, initState_live,
      lookupLoc_c4pts_0, two_rmax_c4pts, findRange_c4pts_0]
    simp
  refine ⟨initState c4pts 4 true none, hrun, ?_, hw, he, ?_⟩
  · rw [initState_live]
    norm_num [c4pts]
  · rw [hw, he]
    norm_num

/-! ## Claim C10 — refinement of the self-excluding reference engine -/

lemma filter_mem_filter_eq (L : List (ℕ × ℝ)) (rest : List ℕ) {p : ℕ}
    (hp : p ∈ rest) :
    (L.filter fun e => e.1 ∈ rest).filter (fun e => e.1 = p)
      = L.filter fun e => e.1 = p := by
  rw [List.filter_filter]
  apply List.filter_congr
  intro e _
  by_cases heq : e.1 = p
  · have hin : e.1 ∈ rest := by
      rw [heq]
      exact hp
    simp [heq, hin, hp]
  · simp [heq]

lemma sum_filter_split (L : List (ℕ × ℝ)) (p : ℕ) (g : ℕ × ℝ → ℝ) :
    (L.map g).sum
      = ((L.filter fun e => e.1 ≠ p).map g).sum
        + ((L.filter fun e => e.1 = p).map g).sum := by
  induction L with
  | nil => simp
  | cons e L ih =>
    by_cases heq : e.1 = p
    · simp only [List.filter_cons, decide_eq_true_eq]
      rw [if_neg (fun hne => hne heq), if_pos heq]
      simp only [List.map_cons, List.sum_cons]
      rw [ih]
      ring
    · simp only [List.filter_cons, decide_eq_true_eq]
      rw [if_pos heq, if_neg heq]
      simp only [List.map_cons, List.sum_cons]
      rw [ih]
      ring

lemma eliminateOne_pop {s s2 : EngineState} {item : HeapItem}
    (h : eliminateOne s = .ok (s2, item)) :
    popMax s.live s.weights = some (item.index, s2.live) := by
  unfold eliminateOne at h
  cases hp : popMax s.live s.weights with
  | none =>
    rw [hp] at h
    exact absurd h (by simp)
  | some pr =>
    obtain ⟨i, rest⟩ := pr
    rw [hp] at h
    simp only [Except.ok.injEq, Prod.mk.injEq] at h
    obtain ⟨hs2, hit⟩ := h
    rw [← hit, ← hs2]

lemma specEliminateOne_eq {t : EngineState} {i : ℕ} {rest : List ℕ}
    (hp : popMax t.live t.weights = some (i, rest)) :
    specEliminateOne t = .ok
      ({ t with
          live := rest
          weights := (((findRange t.locations (lookupLoc t.locations i)
              (2 * t.rmax)).filter (fun e => e.1 ∈ rest)).foldl
            (fun f e => Function.update f e.1 (f e.1 - w t.rmax e.2)) t.weights)
          current := t.current - 1 }, ⟨t.weights i, i⟩) := by
  unfold specEliminateOne
  rw [hp]

lemma spec_step_sim {s t s2 : EngineState} {item : HeapItem}
    (hloc : t.locations = s.locations) (hrmax : t.rmax = s.rmax)
    (htar : t.target = s.target) (hcur : t.current = s.current)
    (hlive : t.live = s.live)
    (hw : ∀ p ∈ s.live, s.weights p = t.weights p + 1)
    (hstep : eliminateOne s = .ok (s2, item)) :
    ∃ t2, specEliminateOne t = .ok (t2, ⟨t.weights item.index, item.index⟩) ∧
      t2.locations = s2.locations ∧ t2.rmax = s2.rmax ∧
      t2.target = s2.target ∧ t2.current = s2.current ∧
      t2.live = s2.live ∧
      (∀ p ∈ s2.live, s2.weights p = t2.weights p + 1) := by
  obtain ⟨hmem, hwt, hmax, hloc2, htar2, hrmax2, hrmin2, hcur2, hliveEq, hwts⟩ :=
    eliminateOne_ok hstep
  have hpop : popMax s.live s.weights = some (item.index, s2.live) :=
    eliminateOne_pop hstep
  have hpopt : popMax t.live t.weights = some (item.index, s2.live) := by
    unfold popMax at hpop ⊢
    rw [hlive, ← maxIdx_shift (c := 1) hw]
    exact hpop
  refine ⟨_, specEliminateOne_eq hpopt, ?_, ?_, ?_, ?_, rfl, ?_⟩
  · show t.locations = s2.locations
    rw [hloc, hloc2]
  · show t.rmax = s2.rmax
    rw [hrmax, hrmax2]
  · show t.target = s2.target
    rw [htar, htar2]
  · show t.current - 1 = s2.current
    rw [hcur, hcur2]
  · intro p hp2
    have hp_live : p ∈ s.live := by
      rw [hliveEq] at hp2
      exact List.erase_subset _ _ hp2
    have htw : ({ t with
        live := s2.live
        weights := (((findRange t.locations (lookupLoc t.locations item.index)
            (2 * t.rmax)).filter (fun e => e.1 ∈ s2.live)).foldl
          (fun f e => Function.update f e.1 (f e.1 - w t.rmax e.2)) t.weights)
        current := t.current - 1 } : EngineState).weights p
        = t.weights p
          - ((((findRange t.locations (lookupLoc t.locations item.index)
              (2 * t.rmax)).filter fun e => e.1 ∈ s2.live).filter
                fun e => e.1 = p).map fun e => w t.rmax e.2).sum :=
      foldl_update_sub (fun e => w t.rmax e.2) _ t.weights p
    rw [hwts p, hw p hp_live, htw, filter_mem_filter_eq _ _ hp2, hloc, hrmax]
    ring

lemma spec_loop_sim :
    ∀ (fuel : ℕ) (s t : EngineState) (tra trb : List HeapItem),
      t.locations = s.locations → t.rmax = s.rmax → t.target = s.target →
      t.current = s.current → t.live = s.live →
      (∀ p ∈ s.live, s.weights p = t.weights p + 1) →
      tra.map HeapItem.index = trb.map HeapItem.index →
      ∀ s2 tr2, eliminateAux fuel s tra = .ok (s2, tr2) →
      ∃ t2 tr2s, specEliminateAux fuel t trb = .ok (t2, tr2s) ∧
        tr2.map HeapItem.index = tr2s.map HeapItem.index ∧
        t2.live = s2.live ∧
        (∀ p ∈ s2.live, s2.weights p = t2.weights p + 1) := by
  intro fuel
  induction fuel with
  | zero =>
    intro s t tra trb hloc hrmax htar hcur hlive hw htr s2 tr2 h
    simp only [eliminateAux, Except.ok.injEq, Prod.mk.injEq] at h
    refine ⟨t, trb, by simp [specEliminateAux], ?_, ?_, ?_⟩
    · rw [← h.2]
      exact htr
    · rw [← h.1]
      exact hlive
    · rw [← h.1]
      exact hw
  | succ fuel ih =>
    intro s t tra trb hloc hrmax htar hcur hlive hw htr s2 tr2 h
    by_cases hc : s.target < (s.current : ℤ)
    · have hct : t.target < (t.current : ℤ) := by
        rw [htar, hcur]
        exact hc
      simp only [eliminateAux, if_pos hc] at h
      cases hstep : eliminateOne s with
      | error e =>
        rw [hstep] at h
        exact absurd h (by simp)
      | ok pr =>
        obtain ⟨s3, item⟩ := pr
        rw [hstep] at h
        obtain ⟨t3, hstept, hl3, hr3, ht3, hc3, hlv3, hw3⟩ :=
          spec_step_sim hloc hrmax htar hcur hlive hw hstep
        have htr3 : (tra ++ [item]).map HeapItem.index
            = (trb ++ [(⟨t.weights item.index, item.index⟩ : HeapItem)]).map
                HeapItem.index := by
          simp only [List.map_append, List.map_cons, List.map_nil]
          rw [htr]
        obtain ⟨t2, tr2s, hrunt, htrf, hlvf, hwf⟩ :=
          ih s3 t3 (tra ++ [item])
            (trb ++ [⟨t.weights item.index, item.index⟩])
            hl3 hr3 ht3 hc3 hlv3 hw3 htr3 s2 tr2 h
        refine ⟨t2, tr2s, ?_, htrf, hlvf, hwf⟩
        simp only [specEliminateAux, if_pos hct, hstept]
        exact hrunt
    · have hct : ¬ t.target < (t.current : ℤ) := by
        rw [htar, hcur]
        exact hc
      simp only [eliminateAux, if_neg hc, Except.ok.injEq, Prod.mk.injEq] at h
      refine ⟨t, trb, by simp only [specEliminateAux, if_neg hct], ?_, ?_, ?_⟩
      · rw [← h.2]
        exact htr
      · rw [← h.1]
        exact hlive
      · rw [← h.1]
        exact hw

lemma initState_weights_shift {locs : List (ℕ × Q3)} {t : ℤ} {iv : Bool}
    {ar : Option ℚ} (hv : validate locs t iv ar = none)
    (hnd : (locs.map Prod.fst).Nodup) :
    ∀ p ∈ (initState locs t iv ar).live,
      (initState locs t iv ar).weights p
        = (specInitState locs t iv ar).weights p + 1 := by
  intro p hp
  rw [initState_live] at hp
  have hploc := lookupLoc_mem hp
  have hrpos := rmaxOf_pos hv
  have hd0 : dist3 (lookupLoc locs p) (lookupLoc locs p)
      ≤ 2 * rmaxOf (boundingVolume locs) t iv ar := by
    rw [dist3_self]
    linarith
  have hm : ((p, dist3 (lookupLoc locs p) (lookupLoc locs p)) : ℕ × ℝ)
      ∈ findRange locs (lookupLoc locs p)
          (2 * rmaxOf (boundingVolume locs) t iv ar) :=
    mem_findRange.mpr ⟨lookupLoc locs p, hploc, hd0, rfl⟩
  show initWeight locs (rmaxOf (boundingVolume locs) t iv ar)
      (lookupLoc locs p)
    = specInitWeight locs (rmaxOf (boundingVolume locs) t iv ar) p
        (lookupLoc locs p) + 1
  unfold initWeight specInitWeight
  rw [sum_filter_split (findRange locs (lookupLoc locs p)
    (2 * rmaxOf (boundingVolume locs) t iv ar)) p
    (fun e => w (rmaxOf (boundingVolume locs) t iv ar) e.2)]
  congr 1
  rw [filter_fst_eq_of_nodup (findRange_keys_nodup _ _ hnd) hm]
  simp only [List.map_cons, List.map_nil, List.sum_cons, List.sum_nil]
  rw [dist3_self, w_zero hrpos, add_zero]

/-- C10: the reference engine whose weights exclude the self-contribution
(`specInit`, `specEliminate`, modelled from the spec) produces exactly the
same extraction sequence and the same surviving set as the code, and every
live point's code weight exceeds its reference weight by the constant
`w(0) = 1` throughout, because the KD-tree range query centred on a point
also returns that point at distance `0`. -/
theorem self_contribution_refinement (locs : List (ℕ × Q3)) (t : ℤ)
    (iv : Bool) (ar : Option ℚ) (hv : validate locs t iv ar = none)
    (hnd : (locs.map Prod.fst).Nodup) :
    ∃ sc ss, init locs t iv ar = .ok sc ∧ specInit locs t iv ar = .ok ss ∧
      ∃ rc trc rs trs, eliminate sc = .ok (rc, trc) ∧
        specEliminate ss = .ok (rs, trs) ∧
        trc.map HeapItem.index = trs.map HeapItem.index ∧
        rs.live = rc.live ∧
        (∀ p ∈ rc.live, rc.weights p = rs.weights p + 1) := by
  have ht : 1 ≤ t := (validate_none_facts hv).2.1
  obtain ⟨rc, trc, hrunc, h1, h2, h3, h4, h5, h6, h7, h8⟩ :=
    eliminate_run (s := initState locs t iv ar)
      (by rw [initState_live, initState_current, List.length_map])
      (by rw [initState_live]; exact hnd) ht
  have hauxc : eliminateAux ((initState locs t iv ar).current + 1)
      (initState locs t iv ar) [] = .ok (rc, trc) := by
    rw [← hrunc]
    rfl
  obtain ⟨rs, trs, hruns, htr, hlv, hwf⟩ :=
    spec_loop_sim ((initState locs t iv ar).current + 1)
      (initState locs t iv ar) (specInitState locs t iv ar) [] []
      rfl rfl rfl rfl rfl (initState_weights_shift hv hnd) rfl rc trc hauxc
  exact ⟨initState locs t iv ar, specInitState locs t iv ar,
    init_ok hv, specInit_ok hv, rc, trc, rs, trs, hrunc, hruns, htr, hlv, hwf⟩

/-- Witness for C10 at the four-point input with `target_samples = 2`. -/
theorem self_contribution_refinement_witness :
    validate c4pts 2 true none = none ∧ (c4pts.map Prod.fst).Nodup ∧
      ∃ sc ss, init c4pts 2 true none = .ok sc ∧
        specInit c4pts 2 true none = .ok ss ∧
        ∃ rc trc rs trs, eliminate sc = .ok (rc, trc) ∧
          specEliminate ss = .ok (rs, trs) ∧
          trc.map HeapItem.index = trs.map HeapItem.index ∧
          rs.live = rc.live ∧
          (∀ p ∈ rc.live, rc.weights p = rs.weights p + 1) :=
  ⟨validate_c4pts_2, nodup_c4pts,
    self_contribution_refinement c4pts 2 true none validate_c4pts_2 nodup_c4pts⟩

/-! ## Claim C1 — the size property of the survivor set -/

/-- C1 (amended): for uniquely-indexed inputs that construct successfully
(`validate` returns `none`, i.e. a nonzero bounding volume, a positive area
when the surface bound is used, and `1 ≤ target_samples`) with
`target_samples ≤ N`, running `eliminate` and collecting the survivors
returns exactly `target_samples` identifiers, every one a key of the input
mapping, none twice.  The claim's `target_samples = 0` boundary does not
complete: construction raises `ZeroDivisionError` (see the
counterexample). -/
theorem eliminate_size_property (locs : List (ℕ × Q3)) (t : ℤ) (iv : Bool)
    (ar : Option ℚ) (hv : validate locs t iv ar = none)
    (hnd : (locs.map Prod.fst).Nodup) (hle : t ≤ locs.length) :
    ∃ ids, run locs t iv ar = .ok ids ∧ (ids.length : ℤ) = t ∧
      ids.Nodup ∧ ∀ i ∈ ids, i ∈ locs.map Prod.fst := by
  obtain ⟨s2, hrun, hloc, htar, hrmax, hrmin, hcur, hlen, hnd2, hsub⟩ :=
    runState_ok hv hnd
  have ht : 1 ≤ t := (validate_none_facts hv).2.1
  refine ⟨s2.live, ?_, ?_, hnd2, fun i hi => hsub hi⟩
  · rw [run, hrun]
    rfl
  · rw [hlen, hcur]
    omega

/-- Witness for C1 at the four-point input with `target_samples = 2`. -/
theorem eliminate_size_property_witness :
    validate c4pts 2 true none = none ∧ (c4pts.map Prod.fst).Nodup ∧
      (2 : ℤ) ≤ c4pts.length ∧
      ∃ ids, run c4pts 2 true none = .ok ids ∧ (ids.length : ℤ) = 2 ∧
        ids.Nodup ∧ ∀ i ∈ ids, i ∈ c4pts.map Prod.fst :=
  ⟨validate_c4pts_2, nodup_c4pts, by norm_num [c4pts],
    eliminate_size_property c4pts 2 true none validate_c4pts_2 nodup_c4pts
      (by norm_num [c4pts])⟩

/-- Counterexample to C1 as stated: at the well-formed four-point input with
`target_samples = 0` (which the claim's range `0 ≤ target_samples ≤ N`
includes), the computation raises `ZeroDivisionError` while computing `rmax`
instead of returning zero identifiers. -/
theorem eliminate_size_property_counterexample :
    (c4pts.map Prod.fst).Nodup ∧ (0 : ℤ) ≤ 0 ∧ (0 : ℤ) ≤ c4pts.length ∧
      run c4pts 0 true none = .error .zeroDivisionError ∧
      ¬ ∃ ids, run c4pts 0 true none = .ok ids := by
  refine ⟨nodup_c4pts, le_refl 0, by norm_num [c4pts],
    run_error validate_c4pts_0, ?_⟩
  rintro ⟨ids, hids⟩
  rw [run_error validate_c4pts_0] at hids
  exact absurd hids (by simp)

/-! ## Claim C7 — behaviour at nonpositive targets -/

/-- C7 (amended): for every input with `target_samples ≤ 0` the computation
fails with a Python exception during construction (`ZeroDivisionError` at
the `rmax` division when `target_samples = 0`; a `ValueError`, `TypeError`
or `ZeroDivisionError` from the complex/zero radius when
`target_samples < 0`).  The elimination loop never runs and no output is
produced. -/
theorem nonpositive_target_fails (locs : List (ℕ × Q3)) (t : ℤ) (iv : Bool)
    (ar : Option ℚ) (ht : t ≤ 0) :
    ∃ e, run locs t iv ar = .error e := by
  obtain ⟨e, he⟩ := validate_some_of_nonpos iv ar ht
  exact ⟨e, run_error he⟩

/-- Witness for C7 at a concrete input. -/
theorem nonpositive_target_fails_witness :
    (0 : ℤ) ≤ 0 ∧ ∃ e, run flatPts 0 true none = .error e :=
  ⟨le_refl 0, nonpositive_target_fails flatPts 0 true none (le_refl 0)⟩

/-- Counterexample to C7 as stated: at `target_samples = 0` the run does not
terminate normally with empty output — it raises `ZeroDivisionError`. -/
theorem nonpositive_target_counterexample :
    run flatPts 0 true none = .error .zeroDivisionError ∧
      ¬ ∃ ids, run flatPts 0 true none = .ok ids := by
  refine ⟨run_error validate_flatPts_0, ?_⟩
  rintro ⟨ids, hids⟩
  rw [run_error validate_flatPts_0] at hids
  exact absurd hids (by simp)

/-! ## Claim C8 — the pass-through property -/

/-- C8 (amended): for inputs that construct successfully (`validate` returns
`none`) with `target_samples ≥ N`, zero eliminations occur and the output is
exactly the input identifier list.  Degenerate inputs in the claim's range
instead raise (see the counterexample). -/
theorem pass_through_property (locs : List (ℕ × Q3)) (t : ℤ) (iv : Bool)
    (ar : Option ℚ) (hv : validate locs t iv ar = none)
    (hge : (locs.length : ℤ) ≤ t) :
    run locs t iv ar = .ok (locs.map Prod.fst) := by
  rw [run, runState, init_ok hv]
  simp only [Except.bind]
  rw [eliminate_noop (s := initState locs t iv ar)
    (by rw [initState_current, initState_target]; omega)]
  rfl

/-- Witness for C8 at the four-point input with `target_samples = 5 > 4`. -/
theorem pass_through_property_witness :
    validate c4pts 5 true none = none ∧ (c4pts.length : ℤ) ≤ 5 ∧
      run c4pts 5 true none = .ok (c4pts.map Prod.fst) :=
  ⟨validate_c4pts_5, by norm_num [c4pts],
    pass_through_property c4pts 5 true none validate_c4pts_5
      (by norm_num [c4pts])⟩

/-- Counterexample to C8 as stated: the single-point input with
`target_samples = 1 ≥ N = 1` should pass through unchanged per the claim,
but its bounding extents are all zero, so `rmax = 0` and the initial weight
computation raises `ZeroDivisionError` in `w`. -/
theorem pass_through_counterexample :
    (onePt.length : ℤ) ≤ 1 ∧
      run onePt 1 true none = .error .zeroDivisionError ∧
      ¬ ∃ ids, run onePt 1 true none = .ok ids := by
  refine ⟨by norm_num [onePt], run_error validate_onePt_1, ?_⟩
  rintro ⟨ids, hids⟩
  rw [run_error validate_onePt_1] at hids
  exact absurd hids (by simp)

/-! ## Claim C4 — no `InvalidInput` validation exists -/

/-- C4: the code contradicts the specification's error-handling contract.
On the degenerate two-point input with a zero `z` extent (zero bounding
volume) and `target_samples = 1`, the engine builds the KD-tree, runs range
queries, and only then dies with `ZeroDivisionError` inside the weight
computation — not with `InvalidInput` before any query/weight work.  On the
empty input it raises `ValueError` from `max()` — again not `InvalidInput`.
No code path produces `InvalidInput` at all. -/
theorem invalid_input_divergence :
    run flatPts 1 true none = .error .zeroDivisionError ∧
      PyError.zeroDivisionError ≠ PyError.invalidInput ∧
      run [] 3 true none = .error .valueError ∧
      PyError.valueError ≠ PyError.invalidInput :=
  ⟨run_error validate_flatPts_1, by decide,
    run_error validate_empty_3, by decide⟩

/-! ## Claim C9 — `rmin` is computed and exposed but never read -/

lemma eliminateOne_rmin (s : EngineState) (x : ℝ) :
    eliminateOne { s with rmin := x }
      = (eliminateOne s).map fun p => ({ p.1 with rmin := x }, p.2) := by
  have hl : ({ s with rmin := x } : EngineState).live = s.live := rfl
  have hw : ({ s with rmin := x } : EngineState).weights = s.weights := rfl
  unfold eliminateOne
  rw [hl, hw]
  cases hp : popMax s.live s.weights with
  | none => rfl
  | some pr =>
    obtain ⟨i, rest⟩ := pr
    rfl

lemma eliminateAux_rmin :
    ∀ (fuel : ℕ) (s : EngineState) (tr : List HeapItem) (x : ℝ),
      eliminateAux fuel { s with rmin := x } tr
        = (eliminateAux fuel s tr).map fun p => ({ p.1 with rmin := x }, p.2) := by
  intro fuel
  induction fuel with
  | zero => intro s tr x; rfl
  | succ fuel ih =>
    intro s tr x
    by_cases hc : s.target < (s.current : ℤ)
    · have hcond : ({ s with rmin := x } : EngineState).target
          < (({ s with rmin := x } : EngineState).current : ℤ) := hc
      simp only [eliminateAux, if_pos hc, if_pos hcond]
      rw [eliminateOne_rmin]
      cases hstep : eliminateOne s with
      | error e => rfl
      | ok pr =>
        obtain ⟨s3, item⟩ := pr
        simp only [Except.map]
        exact ih s3 (tr ++ [item]) x
    · have hcond : ¬ ({ s with rmin := x } : EngineState).target
          < (({ s with rmin := x } : EngineState).current : ℤ) := hc
      simp only [eliminateAux, if_neg hc, if_neg hcond]
      rfl

lemma eliminate_rmin (s : EngineState) (x : ℝ) :
    eliminate { s with rmin := x }
      = (eliminate s).map fun p => ({ p.1 with rmin := x }, p.2) := by
  unfold eliminate
  exact eliminateAux_rmin (s.current + 1) s [] x

/-- C9: the engine computes `rmin = rmax * (1 - (N / M) ** 1.5) * 0.65` once
at construction and stores it in the state, but the elimination loop never
reads it: overwriting `rmin` with any value changes nothing about the run —
neither the extraction trace nor the surviving identifiers. -/
theorem rmin_computed_not_enforced :
    (∀ (locs : List (ℕ × Q3)) (t : ℤ) (iv : Bool) (ar : Option ℚ),
      validate locs t iv ar = none →
      ∃ s, init locs t iv ar = .ok s ∧
        s.rmin = s.rmax * (1 - ((t : ℝ) / (locs.length : ℝ)) ^ ((3 : ℝ) / 2))
          * (13 / 20)) ∧
    (∀ (s : EngineState) (x : ℝ),
      eliminate { s with rmin := x }
        = (eliminate s).map fun p => ({ p.1 with rmin := x }, p.2)) ∧
    (∀ (s : EngineState) (x : ℝ),
      (eliminate { s with rmin := x }).map (fun p => getIndices p.1)
        = (eliminate s).map fun p => getIndices p.1) := by
  refine ⟨?_, eliminate_rmin, ?_⟩
  · intro locs t iv ar hv
    exact ⟨initState locs t iv ar, init_ok hv, rfl⟩
  · intro s x
    rw [eliminate_rmin]
    cases eliminate s with
    | error e => rfl
    | ok pr => rfl

/-- Witness for C9 at the four-point input. -/
theorem rmin_computed_not_enforced_witness :
    validate c4pts 4 true none = none ∧
      ∃ s, init c4pts 4 true none = .ok s ∧
        s.rmin = s.rmax * (1 - ((4 : ℝ) / (c4pts.length : ℝ)) ^ ((3 : ℝ) / 2))
          * (13 / 20) :=
  ⟨validate_c4pts_4,
    rmin_computed_not_enforced.1 c4pts 4 true none validate_c4pts_4⟩

/-! ## Claim C6 — the `rmax` heuristic formula -/

/-- C6: the falloff radius the source computes (`rmaxOf`, sequential
divisions `A / 4 / sqrt(2) / N` and `min` with the surface candidate) equals
the specification's formula `(A / (4 * sqrt(2) * N)) ^ (1/3)` with the
surface candidate `sqrt(area / (2 * sqrt(3) * N))` exactly when surface mode
applies and an area is supplied, and the engine state's `rmax` is that
value. -/
theorem rmax_heuristic_formula :
    (∀ (A : ℚ) (t : ℤ) (iv : Bool) (ar : Option ℚ),
      rmaxOf A t iv ar = specRmax A t iv ar) ∧
    (∀ (locs : List (ℕ × Q3)) (t : ℤ) (iv : Bool) (ar : Option ℚ),
      validate locs t iv ar = none →
      ∃ s, init locs t iv ar = .ok s ∧
        s.rmax = specRmax (boundingVolume locs) t iv ar) := by
  have hbase : ∀ (A : ℚ) (t : ℤ),
      ((A : ℝ) / 4 / Real.sqrt 2 / (t : ℝ))
        = ((A : ℝ) / (4 * Real.sqrt 2 * (t : ℝ))) := by
    intro A t
    rw [div_div, div_div, mul_assoc]
  have harea : ∀ (a : ℚ) (t : ℤ),
      ((a : ℝ) / 2 / Real.sqrt 3 / (t : ℝ))
        = ((a : ℝ) / (2 * Real.sqrt 3 * (t : ℝ))) := by
    intro a t
    rw [div_div, div_div, mul_assoc]
  have h1 : ∀ (A : ℚ) (t : ℤ) (iv : Bool) (ar : Option ℚ),
      rmaxOf A t iv ar = specRmax A t iv ar := by
    intro A t iv ar
    cases iv with
    | false =>
      cases ar with
      | none =>
        simp only [rmaxOf, specRmax]
        rw [hbase]
      | some a =>
        simp only [rmaxOf, specRmax]
        rw [hbase, harea]
    | true =>
      cases ar with
      | none =>
        simp only [rmaxOf, specRmax]
        rw [hbase]
      | some a =>
        simp only [rmaxOf, specRmax]
        rw [hbase]
  refine ⟨h1, ?_⟩
  intro locs t iv ar hv
  exact ⟨initState locs t iv ar, init_ok hv, h1 _ _ _ _⟩

/-- Witness for C6 at concrete arguments. -/
theorem rmax_heuristic_formula_witness :
    rmaxOf 1 4 true none = specRmax 1 4 true none ∧
      validate c4pts 4 true none = none ∧
      ∃ s, init c4pts 4 true none = .ok s ∧
        s.rmax = specRmax (boundingVolume c4pts) 4 true none :=
  ⟨rmax_heuristic_formula.1 1 4 true none, validate_c4pts_4,
    rmax_heuristic_formula.2 c4pts 4 true none validate_c4pts_4⟩

/-! ## Claim C5 — the weight-function contract -/

/-- C5: for `0 < rmax`, the source's weight function agrees with the spec's
`(1 - clamp(d, 0, 2*rmax) / (2*rmax)) ^ 8` on every `d ≥ 0`, is `1` at
`d = 0`, vanishes at and beyond `2*rmax`, and is monotonically
non-increasing on `[0, ∞)`. -/
theorem weight_function_contract (rmax : ℝ) (hr : 0 < rmax) :
    (∀ dv : ℝ, 0 ≤ dv → w rmax dv = specWeight rmax dv) ∧
    w rmax 0 = 1 ∧
    (∀ dv : ℝ, 2 * rmax ≤ dv → w rmax dv = 0) ∧
    (∀ d1 d2 : ℝ, 0 ≤ d1 → d1 ≤ d2 → w rmax d2 ≤ w rmax d1) := by
  have h2r : (0 : ℝ) < 2 * rmax := by linarith
  refine ⟨?_, w_zero hr, ?_, ?_⟩
  · intro dv hdv
    unfold w specWeight adj_d
    rw [max_eq_right (le_min hdv (le_of_lt h2r)), div_div]
  · intro dv hdv
    unfold w adj_d
    rw [min_eq_right hdv, div_div, div_self (ne_of_gt h2r)]
    simp
  · intro d1 d2 h0 h12
    unfold w adj_d
    have hm1 : 0 ≤ min d1 (2 * rmax) := le_min h0 (le_of_lt h2r)
    have hle : min d1 (2 * rmax) ≤ min d2 (2 * rmax) :=
      min_le_min h12 (le_refl _)
    have hub : min d2 (2 * rmax) ≤ 2 * rmax := min_le_right _ _
    have ha : 0 ≤ 1 - min d2 (2 * rmax) / 2 / rmax := by
      rw [div_div, sub_nonneg]
      exact div_le_one_of_le₀ hub (le_of_lt h2r)
    have hb : 1 - min d2 (2 * rmax) / 2 / rmax
        ≤ 1 - min d1 (2 * rmax) / 2 / rmax := by
      rw [div_div, div_div]
      have := (div_le_div_iff_of_pos_right h2r).mpr hle
      linarith
    exact pow_le_pow_left₀ ha hb 8

/-- Witness for C5 at `rmax = 1`. -/
theorem weight_function_contract_witness :
    (0 : ℝ) < 1 ∧ w 1 0 = 1 :=
  ⟨one_pos, (weight_function_contract 1 one_pos).2.1⟩

/-! ## Claim C3 — maximal-weight extraction and the monotone trace -/

lemma eliminateAux_chain :
    ∀ (fuel : ℕ) (s : EngineState) (tr : List HeapItem) (s2 : EngineState)
      (tr2 : List HeapItem),
      eliminateAux fuel s tr = .ok (s2, tr2) →
      tr.Chain' (fun a b => b.weight ≤ a.weight) →
      (∀ a ∈ tr.getLast?, ∀ j ∈ s.live, s.weights j ≤ a.weight) →
      tr2.Chain' (fun a b => b.weight ≤ a.weight) := by
  intro fuel
  induction fuel with
  | zero =>
    intro s tr s2 tr2 h hch hlast
    simp only [eliminateAux, Except.ok.injEq, Prod.mk.injEq] at h
    rw [← h.2]
    exact hch
  | succ fuel ih =>
    intro s tr s2 tr2 h hch hlast
    by_cases hc : s.target < (s.current : ℤ)
    · simp only [eliminateAux, if_pos hc] at h
      cases hstep : eliminateOne s with
      | error e =>
        rw [hstep] at h
        exact absurd h (by simp)
      | ok pr =>
        obtain ⟨s3, item⟩ := pr
        rw [hstep] at h
        obtain ⟨hmem, hwt, hmax, _, _, _, _, _, hliveEq, _⟩ :=
          eliminateOne_ok hstep
        refine ih s3 (tr ++ [item]) s2 tr2 h ?_ ?_
        · rw [List.chain'_append]
          refine ⟨hch, List.chain'_singleton _, ?_⟩
          intro a ha b hb
          simp only [List.head?_cons, Option.mem_def, Option.some.injEq] at hb
          rw [← hb, hwt]
          exact hlast a ha item.index hmem
        · intro a ha j hj
          rw [List.getLast?_concat] at ha
          simp only [Option.mem_def, Option.some.injEq] at ha
          rw [← ha]
          have hj2 : j ∈ s.live := by
            rw [hliveEq] at hj
            exact List.erase_subset _ _ hj
          exact le_trans (weights_decrease hstep j) (hmax j hj2)
    · simp only [eliminateAux, if_neg hc, Except.ok.injEq, Prod.mk.injEq] at h
      rw [← h.2]
      exact hch

/-- C3: every elimination step pops an item of maximal current weight among
the live points, and along any run the popped weights (each read at its own
extraction time) form a non-increasing sequence. -/
theorem max_weight_extraction :
    (∀ (s s2 : EngineState) (item : HeapItem),
      eliminateOne s = .ok (s2, item) →
      item.index ∈ s.live ∧ item.weight = s.weights item.index ∧
        ∀ j ∈ s.live, s.weights j ≤ item.weight) ∧
    (∀ (s s2 : EngineState) (tr : List HeapItem),
      eliminate s = .ok (s2, tr) →
      tr.Chain' fun a b => b.weight ≤ a.weight) := by
  constructor
  · intro s s2 item h
    obtain ⟨h1, h2, h3, _⟩ := eliminateOne_ok h
    exact ⟨h1, h2, h3⟩
  · intro s s2 tr h
    exact eliminateAux_chain (s.current + 1) s [] s2 tr h List.chain'_nil
      (by simp)

/-- Witness for C3: one concrete elimination step from `stateW`. -/
theorem max_weight_extraction_witness :
    ((⟨0, 5⟩ : HeapItem).index ∈ stateW.live ∧
      (⟨0, 5⟩ : HeapItem).weight = stateW.weights 5 ∧
      ∀ j ∈ stateW.live, stateW.weights j ≤ (⟨0, 5⟩ : HeapItem).weight) ∧
    ([(⟨0, 5⟩ : HeapItem)]).Chain' (fun a b => b.weight ≤ a.weight) := by
  constructor
  · exact max_weight_extraction.1 stateW stateW2 ⟨0, 5⟩ rfl
  · exact max_weight_extraction.2 stateW stateW2 [⟨0, 5⟩] rfl

end BlueNoise
